import Mathlib

/-!
Verification development for the ci-search-functions GCS indexer
(package cisearch: IndexJobs, RecordFailingJob, PrometheusValue.UnmarshalJSON).

The Go sources are shallowly embedded below.  Conventions of the embedding:

* Byte slices of ASCII/UTF-8 text are modelled as `List Char`; Go `string`
  as Lean `String`.
* Go maps that the code iterates over are modelled as association lists, the
  list order standing for the (in Go unspecified) iteration order; map index
  assignment is `mapInsert` (replace-or-append), map lookup is `mapLookup`
  (first matching key).
* External collaborators (the GCS client, the generic `encoding/json`
  decoder, `net/url` escaping of reserved bytes, `unicode.IsSpace` beyond
  the Latin-1 range, `strconv.ParseFloat` underscore separators and
  overflow-to-Inf range errors) are modelled at the interface the core
  needs; each such abstraction is recorded at the definition that uses it.
* Storage reads are assumed to succeed: the invocation input carries the
  decode outcome of the object's bytes (`ObjectContent`).  Storage writes
  are collected into a list of `Write` records instead of being performed;
  write/close failures (transient I/O) are outside the model.
-/

namespace CISearch

set_option maxRecDepth 16384

/-- Model of `unicode.IsSpace` as used by `bytes.TrimSpace`, restricted to
the Latin-1 range (space, tab, newline, vertical tab, form feed, carriage
return, next line, no-break space).  The wider Unicode space classes never
occur in the inputs of interest and are elided. -/
def isGoSpace (c : Char) : Bool :=
  c = ' ' || c = '\t' || c = '\n' || c = Char.ofNat 11 || c = Char.ofNat 12 ||
  c = '\r' || c = Char.ofNat 0x85 || c = Char.ofNat 0xA0

/-- Left trim: drop leading space characters. -/
def trimLeftCh (l : List Char) : List Char := l.dropWhile isGoSpace

/-- Right trim: drop trailing space characters. -/
def trimRightCh (l : List Char) : List Char := (l.reverse.dropWhile isGoSpace).reverse

/-- Model of Go `bytes.TrimSpace`. -/
def trimCh (l : List Char) : List Char := trimRightCh (trimLeftCh l)

/-- Model of Go `strings.Split(s, sep)` for a one-character separator,
on character lists.  `splitOnChar c [] = [[]]`, matching Go's
`Split("", sep) = [""]`. -/
def splitOnChar (c : Char) : List Char → List (List Char)
  | [] => [[]]
  | x :: xs =>
    if x = c then [] :: splitOnChar c xs
    else
      match splitOnChar c xs with
      | [] => [[x]]
      | s :: t => (x :: s) :: t

/-- Join character-list segments with a slash (model of `strings.Join`
with separator "/"). -/
def joinSegsCh : List (List Char) → List Char
  | [] => []
  | [s] => s
  | s :: t => s ++ '/' :: joinSegsCh t

/-- Model of Go `bytes.Index(data, sep)` for a one-byte separator: index of
the first occurrence, or `none` (Go returns -1). -/
def goIndexCh (c : Char) : List Char → Option Nat
  | [] => none
  | x :: xs => if x = c then some 0 else (goIndexCh c xs).map (· + 1)

/-- Decimal digit test, written as an explicit disjunction (equivalent to
Go's `'0' <= c && c <= '9'` on the characters involved). -/
def isDigitCh (c : Char) : Bool :=
  c = '0' || c = '1' || c = '2' || c = '3' || c = '4' ||
  c = '5' || c = '6' || c = '7' || c = '8' || c = '9'

/-- The character for a decimal digit value below ten. -/
def digitCh : Nat → Char
  | 0 => '0' | 1 => '1' | 2 => '2' | 3 => '3' | 4 => '4'
  | 5 => '5' | 6 => '6' | 7 => '7' | 8 => '8' | _ => '9'

/-- Digit-extraction worker for `natDecCh`, structurally recursive on a
fuel argument (any fuel bounding the digit count gives the same result;
see `natDecCh_eq`). -/
def natDecChAux : Nat → Nat → List Char
  | 0, _ => []
  | fuel + 1, n =>
    if n < 10 then [digitCh n]
    else natDecChAux fuel (n / 10) ++ [digitCh (n % 10)]

/-- Decimal representation of a natural number, most significant digit
first (the digit core shared by `strconv.FormatInt` and `fmt %d`). -/
def natDecCh (n : Nat) : List Char := natDecChAux (n + 1) n

/-- Numeric value of a digit character. -/
def digitVal (c : Char) : Nat := c.toNat - 48

/-- Value of a most-significant-first digit list. -/
def decValue (l : List Char) : Nat := l.foldl (fun a c => a * 10 + digitVal c) 0

/-- Decimal representation of an integer (model of
`strconv.FormatInt(x, 10)`). -/
def intDecCh (t : Int) : List Char :=
  if t < 0 then '-' :: natDecCh t.natAbs else natDecCh t.toNat

/-- String form of `natDecCh`. -/
def natDecStr (n : Nat) : String := String.mk (natDecCh n)

/-- String form of `intDecCh`. -/
def intDecStr (t : Int) : String := String.mk (intDecCh t)

/-- Model of `strconv.ParseInt(s, 10, 64)`: returns the parsed value
together with an ok flag.  On a syntax error Go returns value 0, on a
range error the value clamped to the int64 range; both with a non-nil
error (flag `false` here). -/
def goParseInt (l : List Char) : Int × Bool :=
  let core : Bool × List Char :=
    match l with
    | [] => (false, [])
    | c :: r =>
      if c = '+' then (false, r)
      else if c = '-' then (true, r)
      else (false, c :: r)
  let neg := core.1
  let digits := core.2
  if digits.isEmpty || !(digits.all isDigitCh) then (0, false)
  else
    let n : Nat := decValue digits
    if neg then
      if n ≤ 2 ^ 63 then (-(n : Int), true) else (-(2 ^ 63 : Int), false)
    else
      if n < 2 ^ 63 then ((n : Int), true) else ((2 ^ 63 - 1 : Int), false)

/-- Model of the syntax accepted by `strconv.ParseFloat(s, 64)` for finite
decimal inputs: optional sign, a mantissa holding at least one digit with
an optional decimal point, and an optional signed exponent part.  Special
forms (`Inf`/`NaN`), hexadecimal floats and underscore digit separators
are elided: none of them occur in the claims' inputs.  The call's range
error is modelled separately by `floatOverflows`; the full model of
`err == nil` is `goParseFloatOk`.

`stripSign` removes one leading sign character, if present. -/
def stripSign (l : List Char) : List Char :=
  match l with
  | [] => []
  | c :: r => if c = '+' || c = '-' then r else c :: r

/-- Fractional part split: after the integer digits, an optional point
followed by digits; returns (fraction digits, remainder). -/
def decFloatFrac (r1 : List Char) : List Char × List Char :=
  match r1 with
  | [] => ([], [])
  | c :: r => if c = '.' then (r.takeWhile isDigitCh, r.dropWhile isDigitCh) else ([], c :: r)

/-- Exponent part: empty, or `e`/`E`, an optional sign and at least one
digit. -/
def decFloatExp (r2 : List Char) : Bool :=
  match r2 with
  | [] => true
  | e :: r3 =>
    if e = 'e' || e = 'E' then
      let r4 := stripSign r3
      !r4.isEmpty && r4.all isDigitCh
    else false

def decFloat (l : List Char) : Bool :=
  let l1 := stripSign l
  let d1 := l1.takeWhile isDigitCh
  let r1 := l1.dropWhile isDigitCh
  let fr := decFloatFrac r1
  if d1.isEmpty && fr.1.isEmpty then false
  else decFloatExp fr.2

/-- The exact decimal value denoted by a float string, as mantissa digits
and a power-of-ten exponent: a string accepted by `decFloat` denotes
`±mant * 10 ^ exp`.  `mant` collects the integer and fraction digits in
order; the exponent is the written exponent minus the number of fraction
digits. -/
def floatMantExp (l : List Char) : Nat × Int :=
  let l1 := stripSign l
  let d1 := l1.takeWhile isDigitCh
  let r1 := l1.dropWhile isDigitCh
  let fr := decFloatFrac r1
  let mant := decValue (d1 ++ fr.1)
  let e10 : Int :=
    match fr.2 with
    | [] => 0
    | _ :: r3 =>
      if r3.head? == some '-' then -(decValue (stripSign r3) : Int)
      else (decValue (stripSign r3) : Int)
  (mant, e10 - fr.1.length)

/-- Model of `strconv.ParseFloat(s, 64)`'s range error on a decimal
input: the call returns `ErrRange` exactly when the value's magnitude
rounds to `+Inf` under IEEE 754 round-half-even, i.e. reaches the
midpoint `(2^54 - 1) * 2^970` between the largest finite float64,
`(2^53 - 1) * 2^971`, and `2^1024` (the midpoint itself ties to the even
`2^1024`).  Values that underflow do not error: strconv rounds them to
zero and returns nil (its test table has `2e-324` and `1e-350` parsing
to `0` with a nil error). -/
def floatOverflows (l : List Char) : Bool :=
  let me := floatMantExp l
  if 0 ≤ me.2 then decide ((2 ^ 54 - 1) * 2 ^ 970 ≤ me.1 * 10 ^ me.2.toNat)
  else decide ((2 ^ 54 - 1) * 2 ^ 970 * 10 ^ (-me.2).toNat ≤ me.1)

/-- Model of the check `_, err := strconv.ParseFloat(s, 64); err == nil`
(functions.go line 416) over the elided feature set: the string is a
syntactically valid decimal float and its value is within float64
range. -/
def goParseFloatOk (l : List Char) : Bool :=
  decFloat l && !floatOverflows l

/-- The characters that can occur in a string accepted by `decFloat`
(used to separate the numeric string from the surrounding tuple
syntax). -/
def isFloatChar (c : Char) : Bool :=
  isDigitCh c || c = '+' || c = '-' || c = '.' || c = 'e' || c = 'E'

/-! ### Path handling (models of Go `path` and `strings` calls) -/

/-- Model of Go `strings.Split(name, "/")`. -/
def goSplitSlash (s : String) : List String :=
  (splitOnChar '/' s.data).map String.mk

/-- Model of Go `strings.HasPrefix` on character lists. -/
def goHasPre : List Char → List Char → Bool
  | [], _ => true
  | _ :: _, [] => false
  | p :: ps, c :: cs => p = c && goHasPre ps cs

/-- Model of Go `strings.HasPrefix(s, pre)`. -/
def goHasPrefixStr (pre s : String) : Bool := goHasPre pre.data s.data

/-- Join string segments with slashes. -/
def joinSlash (l : List String) : String :=
  String.mk (joinSegsCh (l.map String.data))

/-- One step of the segment-stack processing performed by Go `path.Clean`
(stack kept in reverse order): empty and `.` segments are dropped; `..`
pops a non-`..` top, is dropped at the root of a rooted path, and
accumulates otherwise. -/
def cleanStep (rooted : Bool) (stack : List String) (seg : String) : List String :=
  if seg = "" || seg = "." then stack
  else if seg = ".." then
    match stack with
    | [] => if rooted then [] else [".."]
    | top :: rest => if top = ".." then ".." :: top :: rest else rest
  else seg :: stack

/-- Model of Go `path.Clean` (lexical POSIX path cleaning): split on
slashes, drop empty and `.` segments, resolve `..` segments against the
stack, and rejoin, preserving rootedness.  `Clean("") = "."`. -/
def pathClean (p : String) : String :=
  if p = "" then "." else
  let rooted := p.data.head? == some '/'
  let segs := (splitOnChar '/' p.data).map String.mk
  let stack := (segs.foldl (cleanStep rooted) []).reverse
  match rooted, stack with
  | true, [] => "/"
  | true, s => "/" ++ joinSlash s
  | false, [] => "."
  | false, s => joinSlash s

/-- Model of Go `path.Join`: skip leading empty elements, join the rest
with slashes and clean; all-empty input gives `""`. -/
def pathJoin (elems : List String) : String :=
  match elems.dropWhile (· = "") with
  | [] => ""
  | es => pathClean (joinSlash es)

/-- Model of Go `path.Base`: strip trailing slashes, take the part after
the last slash; `""` gives `"."`, an all-slash path gives `"/"`. -/
def pathBase (s : String) : String :=
  if s = "" then "." else
  let l := (s.data.reverse.dropWhile (· = '/')).reverse
  let last := (l.reverse.takeWhile (· ≠ '/')).reverse
  if last.isEmpty then "/" else String.mk last

/-- Model of Go `path.Dir`: the cleaned portion up to and excluding the
final slash-separated element. -/
def pathDir (s : String) : String :=
  pathClean (String.mk ((s.data.reverse.dropWhile (· ≠ '/')).reverse))

/-- Model of `(&url.URL{Scheme: "gs", Host: bucket, Path: p}).String()`:
`gs://bucket/p` (the separating slash is added when the path does not
already start with one, as `URL.String` does).  Percent-escaping of
reserved bytes by `net/url` is elided; bucket names and object paths in
this pipeline contain none. -/
def gsURI (bucket p : String) : String :=
  "gs://" ++ bucket ++ (if p ≠ "" && p.data.head? ≠ some '/' then "/" else "") ++ p

/-! ### RFC 3339 UTC formatting of epoch seconds

Model of `time.Unix(sec, 0).UTC().Format(time.RFC3339)`: the civil date is
recovered from the day number with the standard proleptic-Gregorian
algorithm (era = 400-year cycle), and the result rendered as
`YYYY-MM-DDTHH:MM:SSZ`. -/

/-- Left-pad a digit list with zeros to width 2. -/
def pad2 (n : Nat) : List Char :=
  let d := natDecCh n
  List.replicate (2 - d.length) '0' ++ d

/-- Left-pad a digit list with zeros to width 4. -/
def pad4 (n : Nat) : List Char :=
  let d := natDecCh n
  List.replicate (4 - d.length) '0' ++ d

/-- Civil (proleptic Gregorian) date from a day count relative to
1970-01-01: returns (year, month, day). -/
def civilFromDays (z : Int) : Int × Nat × Nat :=
  let z' := z + 719468
  let era := z'.fdiv 146097
  let doe := (z' - era * 146097).toNat
  let yoe := (doe - doe / 1460 + doe / 36524 - doe / 146096) / 365
  let doy := doe - (365 * yoe + yoe / 4 - yoe / 100)
  let mp := (5 * doy + 2) / 153
  let d := doy - (153 * mp + 2) / 5 + 1
  let m := if mp < 10 then mp + 3 else mp - 9
  let y := era * 400 + yoe + (if m ≤ 2 then 1 else 0)
  (y, m, d)

/-- Rendering of a civil date-time as `YYYY-MM-DDTHH:MM:SSZ`. -/
def rfcFormat (y : Int) (m d hh mm ss : Nat) : String :=
  String.mk ((if y < 0 then '-' :: pad4 y.natAbs else pad4 y.toNat) ++
    '-' :: pad2 m ++ '-' :: pad2 d ++
    'T' :: pad2 hh ++ ':' :: pad2 mm ++ ':' :: pad2 ss ++ ['Z'])

/-- RFC 3339 second-precision UTC rendering of an epoch-seconds value. -/
def rfc3339utc (t : Int) : String :=
  let days := t.fdiv 86400
  let sod := (t - days * 86400).toNat
  let ymd := civilFromDays days
  rfcFormat ymd.1 ymd.2.1 ymd.2.2 (sod / 3600) (sod % 3600 / 60) (sod % 60)

/-! ### The tuple value decoder (`PrometheusValue.UnmarshalJSON`)

The Go method mutates its receiver `*PrometheusValue` in place and returns
an error.  The receiver is modelled as `Option PrometheusValue` (`none` is
a nil pointer); the outcome is the final receiver contents together with
`PVOut`: success, an error (carrying Go's message), or `panicked` for a
nil-pointer dereference. -/

/-- Dropping a prefix cannot lengthen a list (used for termination). -/
theorem dropWhileLenLe (p : Char → Bool) (l : List Char) :
    (l.dropWhile p).length ≤ l.length := by
  induction l with
  | nil => simp [List.dropWhile]
  | cons x xs ih =>
    simp only [List.dropWhile]
    cases p x <;> simp
    omega

/-- Trimming cannot lengthen a list (used for termination). -/
theorem trimChLenLe (l : List Char) : (trimCh l).length ≤ l.length := by
  have h1 := dropWhileLenLe isGoSpace l
  have h2 := dropWhileLenLe isGoSpace ((l.dropWhile isGoSpace).reverse)
  simp only [trimCh, trimRightCh, trimLeftCh, List.length_reverse] at *
  omega

/-- The five states of the hand-rolled tuple parser (Go `parseState`). -/
inductive ParseState
  | start
  | timestamp
  | stringNumber
  | close
  | done
deriving DecidableEq

/-- The numeric value Go's iota gives each state (used in error text). -/
def ParseState.idx : ParseState → Nat
  | .start => 0
  | .timestamp => 1
  | .stringNumber => 2
  | .close => 3
  | .done => 4

/-- The tuple value: epoch timestamp and the raw numeric string. -/
structure PrometheusValue where
  Timestamp : Int
  Value : String
deriving DecidableEq

/-- Outcome of an `UnmarshalJSON` call: clean return, error return, or a
runtime panic (nil-pointer dereference). -/
inductive PVOut
  | ok
  | err (msg : String)
  | panicked
deriving DecidableEq

/-- Error text `fmt.Errorf("unexpected character %c in state %d", c, s)`. -/
def unexpectedCharMsg (c : Char) (s : ParseState) : String :=
  "unexpected character " ++ String.mk [c] ++ " in state " ++ natDecStr s.idx

/-- The scanning loop of `PrometheusValue.UnmarshalJSON` (functions.go
lines 366-426), translated arm by arm, structurally recursive on a fuel
argument (every iteration strictly shortens the input, so the zero-fuel
arm is unreachable from `pvLoop`).  `l = none` models a nil receiver:
every arm that dereferences `l` in Go (the `l == nil` guard itself, which
assigns through `l`, and the field assignments) yields `panicked`. -/
def pvLoopF : Nat → List Char → ParseState → Option PrometheusValue →
    Option PrometheusValue × PVOut
  | 0, _, _, l => (l, .panicked)
  | fuel + 1, data, state, l =>
  match data with
  | [] =>
    if state = .done then (l, .ok)
    else (l, .err "expected [<timestamp int>, \"<number string>\"]")
  | c :: rest =>
    if c = '[' then
      match state with
      | .start =>
        match l with
        | none => (none, .panicked)
        | some _ => pvLoopF fuel (trimCh rest) .timestamp l
      | _ => (l, .err (unexpectedCharMsg c state))
    else if c = ']' then
      match state with
      | .close => pvLoopF fuel (trimCh rest) .done l
      | _ => (l, .err (unexpectedCharMsg c state))
    else
      match state with
      | .timestamp =>
        match goIndexCh ',' (c :: rest) with
        | none =>
          (l, .err "expected [<timestamp int>, \"<number string>\"], could not find comma")
        | some pos =>
          let tsBytes := trimCh ((c :: rest).take pos)
          match l with
          | none => (none, .panicked)
          | some pv =>
            let r := goParseInt tsBytes
            if r.2 then
              pvLoopF fuel ((c :: rest).drop (pos + 1)) .stringNumber (some { pv with Timestamp := r.1 })
            else
              (some { pv with Timestamp := r.1 },
               .err "expected [<timestamp int>, \"<number string>\"], timestamp was not an int64")
      | .stringNumber =>
        match goIndexCh ']' rest with
        | none =>
          (l, .err ("expected [<timestamp int>, \"<number string>\"], could not find ending bracket in "
            ++ String.mk (c :: rest)))
        | some p =>
          let numberBytes := trimCh ((c :: rest).take (p + 1))
          if numberBytes.length < 2 || !(numberBytes.head? == some '"') ||
              !(numberBytes.getLast? == some '"') then
            (l, .err "expected [<timestamp int>, \"<number string>\"], could not find number string")
          else
            let b := (numberBytes.drop 1).dropLast
            if b.length ≠ (trimCh b).length then
              (l, .err "expected [<timestamp int>, \"<number string>\"], number was not a valid float64: whitespace in string")
            else if !goParseFloatOk b then
              (l, .err "expected [<timestamp int>, \"<number string>\"], number was not a valid float64")
            else
              match l with
              | none => (none, .panicked)
              | some pv =>
                pvLoopF fuel ((c :: rest).drop (p + 1)) .close (some { pv with Value := String.mk b })
      | _ => (l, .err (unexpectedCharMsg c state))

/-- The scanning loop at adequate fuel (every step strictly shortens the
input, so any fuel exceeding the input length gives the loop's value; see
`pvLoopF_fuel`). -/
def pvLoop (data : List Char) (state : ParseState) (l : Option PrometheusValue) :
    Option PrometheusValue × PVOut :=
  pvLoopF (data.length + 1) data state l

/-- Model of `PrometheusValue.UnmarshalJSON` (functions.go lines 356-431):
exact `null` is a no-op success, exact `[]` is the distinct "unexpected
value" error, anything else is trimmed and scanned by `pvLoop` from the
start state. -/
def PrometheusValue.UnmarshalJSON (l : Option PrometheusValue) (data : List Char) :
    Option PrometheusValue × PVOut :=
  if data = "null".data then (l, .ok)
  else if data = "[]".data then (l, .err "unexpected value")
  else pvLoop (trimCh data) .start l

/-! ### Metrics data model and the consolidator -/

/-- A label map (`PrometheusLabels`), as an association list; the list
order models Go's (unspecified) map iteration order. -/
abbrev PrometheusLabels := List (String × String)

/-- One series of a vector result (`PrometheusMetric`). -/
structure PrometheusMetric where
  Metric : PrometheusLabels
  Value : PrometheusValue
deriving DecidableEq

/-- The data of a query result (`PrometheusData`). -/
structure PrometheusData where
  ResultType : String
  Result : List PrometheusMetric
deriving DecidableEq

/-- One named query result (`PrometheusResult`). -/
structure PrometheusResult where
  Status : String
  Data : PrometheusData
deriving DecidableEq

/-- A decoded metrics document fragment: query name to result, as an
association list (models `map[string]PrometheusResult`). -/
abbrev MetricsDoc := List (String × PrometheusResult)

/-- A flattened output metric (`OutputMetric`). -/
structure OutputMetric where
  Timestamp : Int
  Value : String
deriving DecidableEq

/-- The data of one `log.Printf` warning emitted when a series is dropped
for lacking the representative label: series index, query name, label. -/
structure Warning where
  index : Nat
  name : String
  label : String
deriving DecidableEq

/-- Association-list lookup (Go map read, first matching key). -/
def mapLookup {α : Type} (k : String) : List (String × α) → Option α
  | [] => none
  | kv :: tl => if kv.1 = k then some kv.2 else mapLookup k tl

/-- Association-list store (Go map index assignment): replace the first
binding of the key, or append a new one. -/
def mapInsert {α : Type} (k : String) (v : α) : List (String × α) → List (String × α)
  | [] => [(k, v)]
  | kv :: tl => if kv.1 = k then (k, v) :: tl else kv :: mapInsert k v tl

/-- Model of `fmt.Sprintf("%s{%s=%q}", name, label, value)`.  The `%q`
escaping of quotes, backslashes and non-printables inside `value` is
elided (plain surrounding quotes); label values in this pipeline contain
none. -/
def compositeKey (name label value : String) : String :=
  name ++ "\x7b" ++ label ++ "=\"" ++ value ++ "\"\x7d"

/-- The inner series loop of the consolidator (functions.go lines
220-241), translated arm by arm.  `label` is the representative-label
variable threaded across iterations (empty string = not yet selected,
Go's `len(label) == 0` test); `i` the series index; warnings accumulate
in emission order. -/
def consolidateLoop (name : String) (label : String) (i : Nat) :
    List PrometheusMetric → List (String × OutputMetric) → List Warning →
    List (String × OutputMetric) × List Warning
  | [], acc, warns => (acc, warns)
  | result :: tl, acc, warns =>
    let lab := if label = "" then
        match result.Metric.head? with
        | some kv => kv.1
        | none => ""
      else label
    if lab = "" then consolidateLoop name "" (i + 1) tl acc warns
    else
      match mapLookup lab result.Metric with
      | none => consolidateLoop name lab (i + 1) tl acc (warns ++ [⟨i, name, lab⟩])
      | some value =>
        consolidateLoop name lab (i + 1) tl
          (mapInsert (compositeKey name lab value)
            ⟨result.Value.Timestamp, result.Value.Value⟩ acc) warns

/-- Per-entry consolidation (functions.go lines 202-242): skip non-success
status, non-vector result type and empty series lists; a single unlabeled
series is published under the bare query name; otherwise the inner series
loop runs. -/
def consolidateEntry (acc : List (String × OutputMetric) × List Warning)
    (nv : String × PrometheusResult) :
    List (String × OutputMetric) × List Warning :=
  let name := nv.1
  let v := nv.2
  if v.Status ≠ "success" then acc
  else if v.Data.ResultType ≠ "vector" then acc
  else
    match v.Data.Result with
    | [] => acc
    | [r] =>
      if r.Metric.isEmpty then
        (mapInsert name ⟨r.Value.Timestamp, r.Value.Value⟩ acc.1, acc.2)
      else consolidateLoop name "" 0 [r] acc.1 acc.2
    | rs => consolidateLoop name "" 0 rs acc.1 acc.2

/-- The metric consolidator: fold `consolidateEntry` over the merged
document's entries (in model iteration order). -/
def consolidate (metrics : MetricsDoc) : List (String × OutputMetric) × List Warning :=
  metrics.foldl consolidateEntry ([], [])

/-- Merge one decoded fragment into the accumulated document, key by key,
later bindings overwriting earlier ones (what `json.Decoder.Decode` into
an existing `map[string]PrometheusResult` does). -/
def mergeDoc (acc d : MetricsDoc) : MetricsDoc :=
  d.foldl (fun m kv => mapInsert kv.1 kv.2 m) acc

/-- The streamed decode loop (functions.go lines 191-199): decode
fragments until end of input, merging each into the document; a fragment
that fails to decode is fatal, the message naming the 1-based ordinal of
the failing fragment (`rows+1`) and the decoder's error. -/
def decodeStream : List (Except String MetricsDoc) → Nat → MetricsDoc →
    Except String MetricsDoc
  | [], _, acc => .ok acc
  | .error msg :: _, rows, _ =>
    .error ("failed to decode metric on line " ++ natDecStr (rows + 1) ++ ": " ++ msg)
  | .ok d :: tl, rows, acc => decodeStream tl (rows + 1) (mergeDoc acc d)

/-! ### The invocation model -/

/-- The fields of the GCS event payload the core reads (`GCSEvent`; the
remaining payload fields are never consulted). -/
structure GCSEvent where
  Name : String
  Bucket : String
deriving DecidableEq

/-- The decoded `finished.json` values (`Finished`).  The `metadata` tree
is never consulted by the indexer and is elided. -/
structure Finished where
  Timestamp : Option Int
  Passed : Option Bool
deriving DecidableEq

/-- The source object's bytes, as the decode outcomes the two branches
need (storage reads and the generic `encoding/json` layer are external
collaborators and assumed to succeed; `raw` is the byte content itself,
used verbatim by `RecordFailingJob`). -/
structure ObjectContent where
  raw : String
  asFinished : Except String Finished
  asMetricsFragments : List (Except String MetricsDoc)

/-- The serialized `JobResult` record. -/
structure JobResult where
  State : String
  CompletedAt : Int
  Link : String
deriving DecidableEq

/-- The body of a storage write, kept structured (JSON serialization of
the records is an external concern; `json.Marshal` on these shapes cannot
fail). -/
inductive WriteBody
  | jobResult (r : JobResult)
  | metricsMap (m : List (String × OutputMetric))
  | rawBytes (s : String)
deriving DecidableEq

/-- One storage write requested by an invocation: target object path,
whether the write carries the `storage.Conditions{DoesNotExist: true}`
precondition, body, and metadata attributes. -/
structure Write where
  path : String
  ifNotExists : Bool
  body : WriteBody
  metadata : List (String × String)
deriving DecidableEq

/-- Result of an invocation: the storage writes requested (in order)
and the returned error, if any. -/
abbrev IndexResult := List Write × Option String

/-- The `finished.json` branch of `IndexJobs` (functions.go lines
76-147). -/
def indexFinishedBranch (e : GCSEvent) (c : ObjectContent) : IndexResult :=
  let parts := goSplitSlash e.Name
  if parts.length < 4 then ([], none)
  else
    match c.asFinished with
    | .error msg => ([], some msg)
    | .ok finished =>
      match finished.Timestamp with
      | none => ([], none)
      | some ts =>
        if ts = 0 then ([], none)
        else
          let state := match finished.Passed with
            | none => "error"
            | some true => "success"
            | some false => "failed"
          let build := parts.getD (parts.length - 2) ""
          let job := parts.getD (parts.length - 3) ""
          let key := rfc3339utc ts
          let u := gsURI e.Bucket (pathDir e.Name)
          let indexPath := pathJoin ["index", "job-state", key, job, build]
          ([{ path := indexPath, ifNotExists := true,
              body := .jobResult ⟨state, ts, u⟩,
              metadata := [("link", u), ("state", state), ("completed", intDecStr ts)] }],
           none)

/-- The `job_metrics.json` branch of `IndexJobs` (functions.go lines
149-277). -/
def indexMetricsBranch (e : GCSEvent) (c : ObjectContent) : IndexResult :=
  let parts := goSplitSlash e.Name
  if parts.length < 4 then ([], none)
  else if parts.getD 0 "" = "logs" then
    let u := gsURI e.Bucket (pathJoin [parts.getD 0 "", parts.getD 1 "", parts.getD 2 ""])
    let job := parts.getD 1 ""
    let build := parts.getD 2 ""
    if goHasPrefixStr "periodic-ci-openshift-release-" job ||
        goHasPrefixStr "release-openshift-" job then
      match decodeStream c.asMetricsFragments 0 [] with
      | .error msg => ([], some msg)
      | .ok metrics =>
        let outputMetrics := (consolidate metrics).1
        match mapLookup "job:duration:total:seconds" outputMetrics with
        | none => ([], some "job not indexed, does not have metric \"job:duration:total:seconds\"")
        | some duration =>
          let key := rfc3339utc duration.Timestamp
          let indexPath := pathJoin ["index", "job-metrics", key, job, build]
          ([{ path := indexPath, ifNotExists := true,
              body := .metricsMap outputMetrics,
              metadata := [("link", u), ("completed", intDecStr duration.Timestamp)] }],
           none)
    else ([], none)
  else ([], none)

/-- Model of `IndexJobs` (functions.go lines 69-280): dispatch on the base
filename of the changed object; any other filename is a no-op. -/
def IndexJobs (e : GCSEvent) (c : ObjectContent) : IndexResult :=
  if pathBase e.Name = "finished.json" then indexFinishedBranch e c
  else if pathBase e.Name = "job_metrics.json" then indexMetricsBranch e c
  else ([], none)

/-- Model of `RecordFailingJob` (the superseded job-failures variant,
lines 62-115 of its source file): indexes only failed completed jobs,
writing the raw `finished.json` bytes — with an unconditional writer (no
`DoesNotExist` precondition). -/
def RecordFailingJob (e : GCSEvent) (c : ObjectContent) : IndexResult :=
  if pathBase e.Name = "finished.json" then
    let parts := goSplitSlash e.Name
    if parts.length < 4 then ([], none)
    else
      match c.asFinished with
      | .error msg => ([], some msg)
      | .ok finished =>
        match finished.Passed, finished.Timestamp with
        | none, _ => ([], none)
        | some true, _ => ([], none)
        | some false, none => ([], none)
        | some false, some ts =>
          if ts = 0 then ([], none)
          else
            let build := parts.getD (parts.length - 2) ""
            let job := parts.getD (parts.length - 3) ""
            let key := rfc3339utc ts
            let u := gsURI e.Bucket (pathDir e.Name)
            let indexPath := pathJoin ["index", "job-failures", key, job, build]
            ([{ path := indexPath, ifNotExists := false,
                body := .rawBytes c.raw,
                metadata := [("link", u)] }],
             none)
  else ([], none)

/-! ### Claim-side (spec-side) definitions

These restate parts of the specification in its own words, for comparison
with the definitions translated from the source. -/

/-- Modelled from the spec: the upstream tuple wire form
`[<timestamp>, "<decimal string>"]` (spec sections 6 and 8; the repository
itself contains no encoder for this form, only the decoder). -/
def encodeTuple (t : Int) (v : String) : String :=
  String.mk ('[' :: intDecCh t ++ ',' :: '"' :: v.data ++ ['"', ']'])

/-- Claim side of "later fragments overwrite earlier ones": the value of
the last pair in the list that carries key `k`. -/
def lastVal {α : Type} (k : String) : List (String × α) → Option α
  | [] => none
  | kv :: tl =>
    match lastVal k tl with
    | some w => some w
    | none => if kv.1 = k then some kv.2 else none

/-- Claim side of representative-label selection (amended claim C4): scan
the series in order and return the index of the first series whose label
map yields a nonempty first key, that key, and the series from that point
on. -/
def findRep : Nat → List PrometheusMetric → Option (Nat × String × List PrometheusMetric)
  | _, [] => none
  | i, s :: tl =>
    match s.Metric.head? with
    | some kv => if kv.1 = "" then findRep (i + 1) tl else some (i, kv.1, s :: tl)
    | none => findRep (i + 1) tl

/-- Claim side of composite-key emission: for every series from the
selection point on, look the representative label up; publish under the
composite key on success, drop with a warning on failure. -/
def emitWithLabel (name rep : String) : Nat → List PrometheusMetric →
    List (String × OutputMetric) → List Warning →
    List (String × OutputMetric) × List Warning
  | _, [], acc, warns => (acc, warns)
  | i, s :: tl, acc, warns =>
    match mapLookup rep s.Metric with
    | none => emitWithLabel name rep (i + 1) tl acc (warns ++ [⟨i, name, rep⟩])
    | some value =>
      emitWithLabel name rep (i + 1) tl
        (mapInsert (compositeKey name rep value)
          ⟨s.Value.Timestamp, s.Value.Value⟩ acc) warns

/-- Claim-side series handling: series scanned before the representative
label is selected are dropped silently; from the selection point on,
`emitWithLabel` publishes or warns. -/
def specSeries (name : String) (rs : List PrometheusMetric)
    (acc : List (String × OutputMetric) × List Warning) :
    List (String × OutputMetric) × List Warning :=
  match findRep 0 rs with
  | none => acc
  | some jrep => emitWithLabel name jrep.2.1 jrep.1 jrep.2.2 acc.1 acc.2

/-- Claim-side per-entry consolidation: the skip rules and the bare-name
single-unlabeled-series case as the claim states them, then `specSeries`. -/
def consolidateSpecEntry (acc : List (String × OutputMetric) × List Warning)
    (nv : String × PrometheusResult) :
    List (String × OutputMetric) × List Warning :=
  let name := nv.1
  let v := nv.2
  if v.Status ≠ "success" then acc
  else if v.Data.ResultType ≠ "vector" then acc
  else
    match v.Data.Result with
    | [] => acc
    | [r] =>
      if r.Metric.isEmpty then
        (mapInsert name ⟨r.Value.Timestamp, r.Value.Value⟩ acc.1, acc.2)
      else specSeries name [r] acc
    | rs => specSeries name rs acc

/-- Claim-side consolidator. -/
def consolidateSpec (metrics : MetricsDoc) :
    List (String × OutputMetric) × List Warning :=
  metrics.foldl consolidateSpecEntry ([], [])

/-- A plain path segment: nonempty, not a dot segment, slash-free (the
side condition under which lexical path cleaning keeps a joined path
verbatim). -/
def niceSeg (s : String) : Prop :=
  s ≠ "" ∧ s ≠ "." ∧ s ≠ ".." ∧ '/' ∉ s.data

instance (s : String) : Decidable (niceSeg s) := by
  unfold niceSeg; infer_instance

/-! ### List and trimming lemmas -/

theorem dropWhile_of_head_false {p : Char → Bool} {c : Char} {l : List Char}
    (h : p c = false) : (c :: l).dropWhile p = c :: l := by
  simp [List.dropWhile, h]

theorem dropWhile_all_false {p : Char → Bool} {l : List Char}
    (h : ∀ c ∈ l, p c = false) : l.dropWhile p = l := by
  induction l with
  | nil => rfl
  | cons x xs ih =>
    rw [dropWhile_of_head_false (h x (by simp))]

theorem trimLeftCh_cons {c : Char} {l : List Char} (h : isGoSpace c = false) :
    trimLeftCh (c :: l) = c :: l :=
  dropWhile_of_head_false h

theorem trimRightCh_concat {x : Char} {l : List Char} (h : isGoSpace x = false) :
    trimRightCh (l ++ [x]) = l ++ [x] := by
  unfold trimRightCh
  have h1 : (l ++ [x]).reverse = x :: l.reverse := by simp
  rw [h1, dropWhile_of_head_false h]
  simp

theorem trimCh_sandwich {c x : Char} {l : List Char}
    (hc : isGoSpace c = false) (hx : isGoSpace x = false) :
    trimCh (c :: (l ++ [x])) = c :: (l ++ [x]) := by
  unfold trimCh
  rw [trimLeftCh_cons hc]
  have h2 : c :: (l ++ [x]) = (c :: l) ++ [x] := by simp
  rw [h2, trimRightCh_concat hx]

theorem trimCh_all_false {l : List Char} (h : ∀ c ∈ l, isGoSpace c = false) :
    trimCh l = l := by
  unfold trimCh trimLeftCh trimRightCh
  rw [dropWhile_all_false h]
  rw [dropWhile_all_false (fun c hc => h c (List.mem_reverse.mp hc))]
  simp

theorem trimCh_nil : trimCh [] = [] := rfl

theorem goIndexCh_append {c : Char} {d ys : List Char} (h : c ∉ d) :
    goIndexCh c (d ++ c :: ys) = some d.length := by
  induction d with
  | nil => simp [goIndexCh]
  | cons x xs ih =>
    have hx : x ≠ c := by rintro rfl; exact h (by simp)
    have h2 : (x :: xs) ++ c :: ys = x :: (xs ++ c :: ys) := rfl
    rw [h2]
    show (if x = c then some 0 else (goIndexCh c (xs ++ c :: ys)).map (· + 1)) = _
    rw [if_neg hx, ih (fun hm => h (by simp [hm]))]
    rfl

theorem goIndexCh_not_mem {c : Char} {l : List Char} (h : c ∉ l) :
    goIndexCh c l = none := by
  induction l with
  | nil => rfl
  | cons x xs ih =>
    have hx : x ≠ c := by rintro rfl; exact h (by simp)
    show (if x = c then some 0 else (goIndexCh c xs).map (· + 1)) = _
    rw [if_neg hx, ih (fun hm => h (by simp [hm]))]
    rfl

theorem take_len_append {α : Type} (d r : List α) : (d ++ r).take d.length = d := by
  induction d with
  | nil => simp
  | cons x xs ih => simp [ih]

theorem drop_len_append {α : Type} (d r : List α) (k : Nat) :
    (d ++ r).drop (d.length + k) = r.drop k := by
  induction d with
  | nil => simp
  | cons x xs ih => simp [Nat.succ_add, ih]

/-! ### Decimal printing and parsing lemmas -/

theorem digitVal_digitCh {n : Nat} (h : n < 10) : digitVal (digitCh n) = n := by
  interval_cases n <;> rfl

theorem isDigitCh_digitCh {n : Nat} (h : n < 10) : isDigitCh (digitCh n) = true := by
  interval_cases n <;> rfl

theorem natDecChAux_congr :
    ∀ n : Nat, ∀ f g m : Nat, m ≤ n → 0 < f → 0 < g → m < 10 ^ f → m < 10 ^ g →
      natDecChAux f m = natDecChAux g m := by
  intro n
  induction n with
  | zero =>
    intro f g m hm hfp hgp hf hg
    cases f with
    | zero => omega
    | succ f' =>
      cases g with
      | zero => omega
      | succ g' =>
        have hlt : m < 10 := by omega
        simp [natDecChAux, hlt]
  | succ n ih =>
    intro f g m hm hfp hgp hf hg
    cases f with
    | zero => omega
    | succ f' =>
      cases g with
      | zero => omega
      | succ g' =>
        by_cases h10 : m < 10
        · simp [natDecChAux, h10]
        · simp only [natDecChAux, if_neg h10]
          have hfp' : 0 < f' := by
            rcases Nat.eq_zero_or_pos f' with rfl | h
            · norm_num at hf; omega
            · exact h
          have hgp' : 0 < g' := by
            rcases Nat.eq_zero_or_pos g' with rfl | h
            · norm_num at hg; omega
            · exact h
          have hdf : m / 10 < 10 ^ f' := by
            rw [Nat.div_lt_iff_lt_mul (by omega)]
            calc m < 10 ^ (f' + 1) := hf
            _ = 10 ^ f' * 10 := by ring
          have hdg : m / 10 < 10 ^ g' := by
            rw [Nat.div_lt_iff_lt_mul (by omega)]
            calc m < 10 ^ (g' + 1) := hg
            _ = 10 ^ g' * 10 := by ring
          have hdlt : m / 10 < m := Nat.div_lt_self (by omega) (by omega)
          rw [ih f' g' (m / 10) (by omega) hfp' hgp' hdf hdg]

theorem lt_ten_pow_succ (n : Nat) : n < 10 ^ (n + 1) :=
  lt_of_lt_of_le (Nat.lt_pow_self (by omega) n)
    (Nat.pow_le_pow_right (by omega) (by omega))

theorem natDecCh_eq (n : Nat) :
    natDecCh n = if n < 10 then [digitCh n] else natDecCh (n / 10) ++ [digitCh (n % 10)] := by
  by_cases h10 : n < 10
  · simp [natDecCh, natDecChAux, h10]
  · simp only [natDecCh, if_neg h10]
    show natDecChAux (n + 1) n = _
    have hstep : natDecChAux (n + 1) n =
        (if n < 10 then [digitCh n] else natDecChAux n (n / 10) ++ [digitCh (n % 10)]) := rfl
    rw [hstep, if_neg h10]
    congr 1
    have hdlt : n / 10 < n := Nat.div_lt_self (by omega) (by omega)
    have hpow : n < 10 ^ n := Nat.lt_pow_self (by omega) n
    exact natDecChAux_congr n n (n / 10 + 1) (n / 10)
      (by omega) (by omega) (by omega) (by omega) (lt_ten_pow_succ (n / 10))

theorem decValue_concat (l : List Char) (c : Char) :
    decValue (l ++ [c]) = decValue l * 10 + digitVal c := by
  simp [decValue, List.foldl_append]

theorem decValue_natDecCh (n : Nat) : decValue (natDecCh n) = n := by
  induction n using Nat.strong_induction_on with
  | _ n ih =>
    rw [natDecCh_eq]
    by_cases h10 : n < 10
    · simp [h10, decValue, digitVal_digitCh h10]
    · rw [if_neg h10, decValue_concat,
        ih (n / 10) (Nat.div_lt_self (by omega) (by omega)),
        digitVal_digitCh (Nat.mod_lt n (by omega))]
      omega

theorem natDecCh_digits (n : Nat) : ∀ c ∈ natDecCh n, isDigitCh c = true := by
  induction n using Nat.strong_induction_on with
  | _ n ih =>
    rw [natDecCh_eq]
    by_cases h10 : n < 10
    · simp only [if_pos h10, List.mem_singleton]
      rintro c rfl
      exact isDigitCh_digitCh h10
    · rw [if_neg h10]
      intro c hc
      rcases List.mem_append.mp hc with h | h
      · exact ih (n / 10) (Nat.div_lt_self (by omega) (by omega)) c h
      · rcases List.mem_singleton.mp h with rfl
        exact isDigitCh_digitCh (Nat.mod_lt n (by omega))

theorem natDecCh_ne_nil (n : Nat) : natDecCh n ≠ [] := by
  rw [natDecCh_eq]
  by_cases h10 : n < 10 <;> simp [h10]

theorem isDigitCh_cases {c : Char} (h : isDigitCh c = true) :
    c = '0' ∨ c = '1' ∨ c = '2' ∨ c = '3' ∨ c = '4' ∨
    c = '5' ∨ c = '6' ∨ c = '7' ∨ c = '8' ∨ c = '9' := by
  simpa [isDigitCh, or_assoc] using h

theorem digit_ne {c x : Char} (h : isDigitCh c = true) (hx : isDigitCh x = false) :
    c ≠ x := by
  rintro rfl
  rw [h] at hx
  cases hx

theorem digit_not_space {c : Char} (h : isDigitCh c = true) : isGoSpace c = false := by
  rcases isDigitCh_cases h with rfl | rfl | rfl | rfl | rfl | rfl | rfl | rfl | rfl | rfl <;> rfl

theorem natDecCh_head_digit (n : Nat) :
    ∃ c r, natDecCh n = c :: r ∧ isDigitCh c = true := by
  rcases hl : natDecCh n with _ | ⟨c, r⟩
  · exact absurd hl (natDecCh_ne_nil n)
  · exact ⟨c, r, rfl, natDecCh_digits n c (by rw [hl]; simp)⟩

theorem goParseInt_natDecCh (m : Nat) (hm : m < 2 ^ 63) :
    goParseInt (natDecCh m) = ((m : Int), true) := by
  obtain ⟨c, r, hl, hc⟩ := natDecCh_head_digit m
  have hplus : c ≠ '+' := digit_ne hc (by rfl)
  have hminus : c ≠ '-' := digit_ne hc (by rfl)
  have hall : ∀ x ∈ c :: r, isDigitCh x = true := by
    rw [← hl]; exact natDecCh_digits m
  have hdv : decValue (c :: r) = m := by rw [← hl]; exact decValue_natDecCh m
  have hm' : m < 9223372036854775808 := by norm_num at hm; exact hm
  rw [hl]
  simp [goParseInt, hplus, hminus, List.all_eq_true.mpr hall, hdv, hm']

theorem goParseInt_intDecCh (t : Int) (h1 : -(2 ^ 63) ≤ t) (h2 : t < 2 ^ 63) :
    goParseInt (intDecCh t) = (t, true) := by
  by_cases ht : t < 0
  · have hl : intDecCh t = '-' :: natDecCh t.natAbs := by simp [intDecCh, ht]
    obtain ⟨c, r, hnd, hc⟩ := natDecCh_head_digit t.natAbs
    have hall : ∀ x ∈ natDecCh t.natAbs, isDigitCh x = true := natDecCh_digits _
    have hdv : decValue (natDecCh t.natAbs) = t.natAbs := decValue_natDecCh _
    have hne : (natDecCh t.natAbs).isEmpty = false := by
      rw [hnd]; rfl
    have hrange : t.natAbs ≤ 2 ^ 63 := by omega
    rw [hl]
    simp [goParseInt, hne, List.all_eq_true.mpr hall, hdv, hrange]
    have hlit : t.natAbs ≤ 9223372036854775808 := by norm_num at hrange; exact hrange
    rw [if_pos hlit, abs_of_neg ht]
    simp
  · have hl : intDecCh t = natDecCh t.toNat := by simp [intDecCh, ht]
    have hrange : t.toNat < 2 ^ 63 := by omega
    rw [hl, goParseInt_natDecCh t.toNat hrange]
    congr 1
    omega

theorem intDecCh_chars (t : Int) :
    ∀ c ∈ intDecCh t, isDigitCh c = true ∨ c = '-' := by
  intro c hc
  unfold intDecCh at hc
  by_cases ht : t < 0
  · rw [if_pos ht] at hc
    rcases List.mem_cons.mp hc with rfl | h
    · right; rfl
    · left; exact natDecCh_digits _ c h
  · rw [if_neg ht] at hc
    left; exact natDecCh_digits _ c hc

theorem intDecCh_ne_nil (t : Int) : intDecCh t ≠ [] := by
  unfold intDecCh
  by_cases ht : t < 0
  · simp [ht]
  · simp [ht, natDecCh_ne_nil]

theorem intDecCh_no_comma (t : Int) : ',' ∉ intDecCh t := by
  intro hm
  rcases intDecCh_chars t ',' hm with h | h
  · cases h
  · cases h

theorem intDecCh_not_space (t : Int) : ∀ c ∈ intDecCh t, isGoSpace c = false := by
  intro c hc
  rcases intDecCh_chars t c hc with h | rfl
  · exact digit_not_space h
  · rfl

/-! ### Characters of accepted float strings -/

theorem stripSign_shape (l : List Char) :
    stripSign l = l ∨ ∃ c, (c = '+' ∨ c = '-') ∧ l = c :: stripSign l := by
  cases l with
  | nil => left; rfl
  | cons c r =>
    by_cases h : c = '+' ∨ c = '-'
    · right
      refine ⟨c, h, ?_⟩
      have hb : (c = '+' || c = '-') = true := by
        rcases h with rfl | rfl <;> simp
      simp [stripSign, hb]
    · left
      push_neg at h
      simp [stripSign, h.1, h.2]

theorem mem_of_mem_stripSign {l : List Char} {c : Char} (h : c ∈ stripSign l) :
    c ∈ l := by
  rcases stripSign_shape l with he | ⟨s, _, he⟩
  · rw [← he]; exact h
  · rw [he]; exact List.mem_cons_of_mem s h

theorem stripSign_mem_split {l : List Char} {c : Char} (h : c ∈ l) :
    c = '+' ∨ c = '-' ∨ c ∈ stripSign l := by
  rcases stripSign_shape l with he | ⟨s, hs, he⟩
  · right; right; rw [he]; exact h
  · rw [he] at h
    rcases List.mem_cons.mp h with rfl | h2
    · rcases hs with rfl | rfl
      · left; rfl
      · right; left; rfl
    · right; right; exact h2

theorem decFloatExp_chars {r2 : List Char} (h : decFloatExp r2 = true) :
    ∀ c ∈ r2, isFloatChar c = true := by
  intro c hc
  cases r2 with
  | nil => cases hc
  | cons e r3 =>
    by_cases he : e = 'e' || e = 'E'
    · have h4 : (stripSign r3).all isDigitCh = true := by
        simp only [decFloatExp, if_pos he] at h
        exact (Bool.and_eq_true _ _ |>.mp h).2
      rcases List.mem_cons.mp hc with rfl | h3
      · rcases Bool.or_eq_true _ _ |>.mp he with h' | h' <;>
          simp [isFloatChar, of_decide_eq_true h']
      · rcases stripSign_mem_split h3 with rfl | h' | h'
        · simp [isFloatChar]
        · rcases h' with rfl; simp [isFloatChar]
        · have := List.all_eq_true.mp h4 c h'
          simp [isFloatChar, this]
    · simp only [decFloatExp, if_neg he] at h
      cases h

theorem decFloatFrac_chars {r1 : List Char} {c : Char} (h : c ∈ r1) :
    c = '.' ∨ isDigitCh c = true ∨ c ∈ (decFloatFrac r1).2 := by
  cases r1 with
  | nil => cases h
  | cons c1 rest =>
    by_cases hdot : c1 = '.'
    · subst hdot
      rcases List.mem_cons.mp h with rfl | h2
      · left; rfl
      · have hsplit : rest.takeWhile isDigitCh ++ rest.dropWhile isDigitCh = rest :=
          List.takeWhile_append_dropWhile isDigitCh rest
        rw [← hsplit] at h2
        rcases List.mem_append.mp h2 with h3 | h3
        · right; left; exact List.mem_takeWhile_imp h3
        · right; right; simpa [decFloatFrac] using h3
    · right; right
      simpa [decFloatFrac, hdot] using h

theorem decFloat_chars {l : List Char} (h : decFloat l = true) :
    ∀ c ∈ l, isFloatChar c = true := by
  intro c hc
  rcases stripSign_mem_split hc with rfl | h1 | h1
  · simp [isFloatChar]
  · rcases h1 with rfl; simp [isFloatChar]
  · -- c is in the sign-stripped remainder l1
    have hexp : decFloatExp (decFloatFrac ((stripSign l).dropWhile isDigitCh)).2 = true := by
      by_cases hcond : ((stripSign l).takeWhile isDigitCh).isEmpty &&
          (decFloatFrac ((stripSign l).dropWhile isDigitCh)).1.isEmpty
      · simp only [decFloat, hcond] at h
        cases h
      · simp only [decFloat] at h
        rw [if_neg hcond] at h
        exact h
    have hsplit : (stripSign l).takeWhile isDigitCh ++ (stripSign l).dropWhile isDigitCh =
        stripSign l := List.takeWhile_append_dropWhile isDigitCh (stripSign l)
    rw [← hsplit] at h1
    rcases List.mem_append.mp h1 with h2 | h2
    · simp [isFloatChar, List.mem_takeWhile_imp h2]
    · rcases decFloatFrac_chars h2 with rfl | hd | h3
      · simp [isFloatChar]
      · simp [isFloatChar, hd]
      · exact decFloatExp_chars hexp c h3

theorem floatChar_not_space {c : Char} (h : isFloatChar c = true) :
    isGoSpace c = false := by
  rcases Bool.or_eq_true _ _ |>.mp h with h1 | h1
  · rcases Bool.or_eq_true _ _ |>.mp h1 with h2 | h2
    · rcases Bool.or_eq_true _ _ |>.mp h2 with h3 | h3
      · rcases Bool.or_eq_true _ _ |>.mp h3 with h4 | h4
        · rcases Bool.or_eq_true _ _ |>.mp h4 with h5 | h5
          · exact digit_not_space h5
          · rcases of_decide_eq_true h5; rfl
        · rcases of_decide_eq_true h4; rfl
      · rcases of_decide_eq_true h3; rfl
    · rcases of_decide_eq_true h2; rfl
  · rcases of_decide_eq_true h1; rfl

theorem floatChar_ne {c x : Char} (h : isFloatChar c = true) (hx : isFloatChar x = false) :
    c ≠ x := by
  rintro rfl
  rw [h] at hx
  cases hx

theorem decFloat_not_space {l : List Char} (h : decFloat l = true) :
    ∀ c ∈ l, isGoSpace c = false :=
  fun c hc => floatChar_not_space (decFloat_chars h c hc)

theorem goParseFloatOk_decFloat {l : List Char} (h : goParseFloatOk l = true) :
    decFloat l = true := by
  have h' : (decFloat l && !floatOverflows l) = true := h
  simp only [Bool.and_eq_true] at h'
  exact h'.1

/-- The modelled ParseFloat verdicts at the float64 range boundary agree
with strconv's test table: the largest finite float64 and `1e308` parse,
overflowing magnitudes (`2e308`, `1e309`, `1e400`, either sign) are
range errors, and the underflowing `2e-324` parses (to zero) with a nil
error. -/
theorem floatRange_boundary :
    goParseFloatOk "1.7976931348623157e308".data = true ∧
    goParseFloatOk "1e308".data = true ∧
    goParseFloatOk "2e308".data = false ∧
    goParseFloatOk "1e309".data = false ∧
    goParseFloatOk "1e400".data = false ∧
    goParseFloatOk "-1e309".data = false ∧
    goParseFloatOk "2e-324".data = true := by
  decide

theorem decFloat_no_rbracket {l : List Char} (h : decFloat l = true) : ']' ∉ l := by
  intro hm
  have := decFloat_chars h ']' hm
  cases this

/-! ### Stepping lemmas for the tuple-decoder loop -/

theorem pvLoopF_congr :
    ∀ n : Nat, ∀ data : List Char, data.length ≤ n → ∀ f g state l,
      data.length < f → data.length < g →
      pvLoopF f data state l = pvLoopF g data state l := by
  intro n
  induction n with
  | zero =>
    intro data hlen f g state l hf hg
    cases f with
    | zero => omega
    | succ f' =>
      cases g with
      | zero => omega
      | succ g' =>
        cases data with
        | nil => rfl
        | cons c rest => simp at hlen
  | succ n ih =>
    intro data hlen f g state l hf hg
    cases f with
    | zero => omega
    | succ f' =>
      cases g with
      | zero => omega
      | succ g' =>
        cases data with
        | nil => rfl
        | cons c rest =>
          simp only [List.length_cons] at hlen hf hg
          have htrim : (trimCh rest).length ≤ n := by
            have := trimChLenLe rest; omega
          have htf : (trimCh rest).length < f' := by
            have := trimChLenLe rest; omega
          have htg : (trimCh rest).length < g' := by
            have := trimChLenLe rest; omega
          show pvLoopF (f' + 1) (c :: rest) state l = pvLoopF (g' + 1) (c :: rest) state l
          by_cases hc : c = '['
          · simp only [pvLoopF, if_pos hc]
            cases state <;> try rfl
            cases l with
            | none => rfl
            | some pv => exact ih (trimCh rest) htrim f' g' .timestamp (some pv) htf htg
          · by_cases hc2 : c = ']'
            · simp only [pvLoopF, if_neg hc, if_pos hc2]
              cases state <;> try rfl
              exact ih (trimCh rest) htrim f' g' .done l htf htg
            · simp only [pvLoopF, if_neg hc, if_neg hc2]
              cases state <;> try rfl
              · -- timestamp state
                rcases hidx : goIndexCh ',' (c :: rest) with _ | pos
                · simp only [hidx]
                · simp only [hidx]
                  cases l with
                  | none => rfl
                  | some pv =>
                    by_cases hok : (goParseInt (trimCh ((c :: rest).take pos))).2
                    · simp only [hok, if_pos rfl]
                      have hd : ((c :: rest).drop (pos + 1)).length ≤ n := by
                        simp only [List.length_drop, List.length_cons]; omega
                      have hdf : ((c :: rest).drop (pos + 1)).length < f' := by
                        simp only [List.length_drop, List.length_cons]; omega
                      have hdg : ((c :: rest).drop (pos + 1)).length < g' := by
                        simp only [List.length_drop, List.length_cons]; omega
                      exact ih _ hd f' g' .stringNumber _ hdf hdg
                    · simp only [Bool.not_eq_true] at hok
                      simp only [hok, Bool.false_eq_true, if_false]
              · -- stringNumber state
                rcases hidx : goIndexCh ']' rest with _ | p
                · simp only [hidx]
                · simp only [hidx]
                  by_cases hnb : (trimCh ((c :: rest).take (p + 1))).length < 2 ||
                      !((trimCh ((c :: rest).take (p + 1))).head? == some '"') ||
                      !((trimCh ((c :: rest).take (p + 1))).getLast? == some '"')
                  · simp only [hnb, if_pos rfl]; rfl
                  · simp only [Bool.not_eq_true] at hnb
                    simp only [hnb, Bool.false_eq_true, if_false]
                    by_cases hws : ((trimCh ((c :: rest).take (p + 1))).drop 1).dropLast.length ≠
                        (trimCh (((trimCh ((c :: rest).take (p + 1))).drop 1).dropLast)).length
                    · simp only [if_pos hws]
                    · simp only [if_neg hws]
                      by_cases hfl : !goParseFloatOk ((trimCh ((c :: rest).take (p + 1))).drop 1).dropLast
                      · simp only [hfl, if_pos rfl]; rfl
                      · simp only [Bool.not_eq_true'] at hfl
                        simp only [hfl, Bool.not_true, Bool.false_eq_true, if_false]
                        cases l with
                        | none => rfl
                        | some pv =>
                          have hd : ((c :: rest).drop (p + 1)).length ≤ n := by
                            simp only [List.length_drop, List.length_cons]; omega
                          have hdf : ((c :: rest).drop (p + 1)).length < f' := by
                            simp only [List.length_drop, List.length_cons]; omega
                          have hdg : ((c :: rest).drop (p + 1)).length < g' := by
                            simp only [List.length_drop, List.length_cons]; omega
                          exact ih _ hd f' g' .close _ hdf hdg

theorem pvLoop_of_fuel {fuel : Nat} {data : List Char} {state : ParseState}
    {l : Option PrometheusValue} (h : data.length < fuel) :
    pvLoopF fuel data state l = pvLoop data state l :=
  pvLoopF_congr data.length data le_rfl fuel (data.length + 1) state l h (by omega)

theorem pvLoop_nil_done (l : Option PrometheusValue) : pvLoop [] .done l = (l, .ok) := rfl

theorem pvLoop_nil_not_done (state : ParseState) (l : Option PrometheusValue)
    (h : state ≠ .done) :
    pvLoop [] state l = (l, .err "expected [<timestamp int>, \"<number string>\"]") := by
  cases state <;> first | rfl | exact absurd rfl h

theorem pvLoop_open_some (rest : List Char) (pv : PrometheusValue) :
    pvLoop ('[' :: rest) .start (some pv) = pvLoop (trimCh rest) .timestamp (some pv) := by
  show pvLoopF (rest.length + 1 + 1) ('[' :: rest) .start (some pv) = _
  have hstep : pvLoopF (rest.length + 1 + 1) ('[' :: rest) .start (some pv) =
      pvLoopF (rest.length + 1) (trimCh rest) .timestamp (some pv) := by
    simp [pvLoopF]
  rw [hstep]
  exact pvLoop_of_fuel (by have := trimChLenLe rest; omega)

theorem pvLoop_open_none (rest : List Char) :
    pvLoop ('[' :: rest) .start none = (none, .panicked) := by
  show pvLoopF (rest.length + 1 + 1) ('[' :: rest) .start none = _
  simp [pvLoopF]

theorem pvLoop_close_bracket (rest : List Char) (l : Option PrometheusValue) :
    pvLoop (']' :: rest) .close l = pvLoop (trimCh rest) .done l := by
  show pvLoopF (rest.length + 1 + 1) (']' :: rest) .close l = _
  have hstep : pvLoopF (rest.length + 1 + 1) (']' :: rest) .close l =
      pvLoopF (rest.length + 1) (trimCh rest) .done l := by
    simp [pvLoopF]
  rw [hstep]
  exact pvLoop_of_fuel (by have := trimChLenLe rest; omega)

theorem pvLoop_timestamp_step {c : Char} {rest : List Char} {pos : Nat} {n : Int}
    (pv : PrometheusValue)
    (hc1 : c ≠ '[') (hc2 : c ≠ ']')
    (hidx : goIndexCh ',' (c :: rest) = some pos)
    (hok : goParseInt (trimCh ((c :: rest).take pos)) = (n, true)) :
    pvLoop (c :: rest) .timestamp (some pv) =
      pvLoop ((c :: rest).drop (pos + 1)) .stringNumber (some { pv with Timestamp := n }) := by
  show pvLoopF (rest.length + 1 + 1) (c :: rest) .timestamp (some pv) = _
  have hstep : pvLoopF (rest.length + 1 + 1) (c :: rest) .timestamp (some pv) =
      pvLoopF (rest.length + 1) ((c :: rest).drop (pos + 1)) .stringNumber
        (some { pv with Timestamp := n }) := by
    simp only [pvLoopF, if_neg hc1, if_neg hc2, hidx, hok]
    rfl
  rw [hstep]
  exact pvLoop_of_fuel (by simp only [List.length_drop, List.length_cons]; omega)

theorem pvLoop_stringnum_step {c : Char} {rest b : List Char} {p : Nat}
    (pv : PrometheusValue)
    (hc1 : c ≠ '[') (hc2 : c ≠ ']')
    (hidx : goIndexCh ']' rest = some p)
    (hnb : trimCh ((c :: rest).take (p + 1)) = '"' :: (b ++ ['"']))
    (hws : trimCh b = b) (hfl : goParseFloatOk b = true) :
    pvLoop (c :: rest) .stringNumber (some pv) =
      pvLoop ((c :: rest).drop (p + 1)) .close (some { pv with Value := String.mk b }) := by
  show pvLoopF (rest.length + 1 + 1) (c :: rest) .stringNumber (some pv) = _
  have hlast : ('"' :: (b ++ ['"'])).getLast? = some '"' := by
    rw [show ('"' : Char) :: (b ++ ['"']) = ('"' :: b) ++ ['"'] from rfl,
      List.getLast?_concat]
  have hb : ((('"' :: (b ++ ['"'])) : List Char).drop 1).dropLast = b := by
    simp [List.dropLast_concat]
  have hstep : pvLoopF (rest.length + 1 + 1) (c :: rest) .stringNumber (some pv) =
      pvLoopF (rest.length + 1) ((c :: rest).drop (p + 1)) .close
        (some { pv with Value := String.mk b }) := by
    simp only [pvLoopF, if_neg hc1, if_neg hc2, hidx, hnb, hb, hws, hfl, hlast]
    simp
  rw [hstep]
  exact pvLoop_of_fuel (by simp only [List.length_drop, List.length_cons]; omega)

/-! ### Round-trip decode of the encoded tuple form -/

theorem string_mk_data (s : String) : String.mk s.data = s := rfl

theorem roundtrip_str (v : String) (pv : PrometheusValue)
    (hfl : goParseFloatOk v.data = true) :
    pvLoop ('"' :: (v.data ++ ['"', ']'])) .stringNumber (some pv) =
      (some { pv with Value := v }, .ok) := by
  have hdf : decFloat v.data = true := goParseFloatOk_decFloat hfl
  have hnot : (']' : Char) ∉ v.data ++ ['"'] := by
    intro hm
    rcases List.mem_append.mp hm with h | h
    · exact decFloat_no_rbracket hdf h
    · simp at h
  have hidx : goIndexCh ']' (v.data ++ ['"', ']']) = some (v.data.length + 1) := by
    have hsplit : v.data ++ ['"', ']'] = (v.data ++ ['"']) ++ ']' :: [] := by simp
    rw [hsplit]
    have hgi := @goIndexCh_append ']' (v.data ++ ['"']) ([] : List Char) hnot
    simpa using hgi
  have hform : ('"' :: (v.data ++ ['"', ']']) : List Char) =
      ('"' :: (v.data ++ ['"'])) ++ [']'] := by simp
  have htake : (('"' :: (v.data ++ ['"', ']'])) : List Char).take (v.data.length + 1 + 1) =
      '"' :: (v.data ++ ['"']) := by
    rw [hform]
    have hl : ('"' :: (v.data ++ ['"']) : List Char).length = v.data.length + 1 + 1 := by simp
    rw [← hl]
    exact take_len_append _ _
  have hnb : trimCh ((('"' :: (v.data ++ ['"', ']'])) : List Char).take
      (v.data.length + 1 + 1)) = '"' :: (v.data ++ ['"']) := by
    rw [htake]
    exact trimCh_sandwich (by rfl) (by rfl)
  have hws : trimCh v.data = v.data := trimCh_all_false (decFloat_not_space hdf)
  have hdrop : (('"' :: (v.data ++ ['"', ']'])) : List Char).drop
      (v.data.length + 1 + 1) = [']'] := by
    rw [hform]
    have hl : ('"' :: (v.data ++ ['"']) : List Char).length = v.data.length + 1 + 1 := by simp
    have hda := drop_len_append ('"' :: (v.data ++ ['"'])) ([']'] : List Char) 0
    rw [hl] at hda
    simpa using hda
  rw [pvLoop_stringnum_step pv (by decide) (by decide) hidx hnb hws hfl, hdrop,
    pvLoop_close_bracket, trimCh_nil, pvLoop_nil_done, string_mk_data]

theorem roundtrip_num (t : Int) (v : String) (init : PrometheusValue)
    (h1 : -(2 ^ 63) ≤ t) (h2 : t < 2 ^ 63) (h3 : goParseFloatOk v.data = true) :
    pvLoop (intDecCh t ++ (',' :: ('"' :: (v.data ++ ['"', ']'])))) .timestamp (some init) =
      (some ⟨t, v⟩, .ok) := by
  obtain ⟨c0, dr, hd0⟩ : ∃ c0 dr, intDecCh t = c0 :: dr := by
    rcases he : intDecCh t with _ | ⟨c0, dr⟩
    · exact absurd he (intDecCh_ne_nil t)
    · exact ⟨c0, dr, rfl⟩
  have hc0 : isDigitCh c0 = true ∨ c0 = '-' :=
    intDecCh_chars t c0 (by rw [hd0]; simp)
  have hc0open : c0 ≠ '[' := by
    rcases hc0 with h | rfl
    · exact digit_ne h (by rfl)
    · decide
  have hc0close : c0 ≠ ']' := by
    rcases hc0 with h | rfl
    · exact digit_ne h (by rfl)
    · decide
  have hidx : goIndexCh ',' (intDecCh t ++ (',' :: ('"' :: (v.data ++ ['"', ']'])))) =
      some (intDecCh t).length :=
    goIndexCh_append (intDecCh_no_comma t)
  have hok : goParseInt (trimCh ((intDecCh t ++ (',' :: ('"' :: (v.data ++
      ['"', ']'])))).take (intDecCh t).length)) = (t, true) := by
    rw [take_len_append, trimCh_all_false (intDecCh_not_space t)]
    exact goParseInt_intDecCh t h1 h2
  have hdrop : (intDecCh t ++ (',' :: ('"' :: (v.data ++ ['"', ']'])))).drop
      ((intDecCh t).length + 1) = '"' :: (v.data ++ ['"', ']']) := by
    have hda := drop_len_append (intDecCh t) (',' :: ('"' :: (v.data ++ ['"', ']']))) 1
    simpa using hda
  have hcons : intDecCh t ++ (',' :: ('"' :: (v.data ++ ['"', ']']))) =
      c0 :: (dr ++ (',' :: ('"' :: (v.data ++ ['"', ']'])))) := by rw [hd0]; rfl
  rw [hcons] at hidx hok hdrop ⊢
  rw [pvLoop_timestamp_step init hc0open hc0close hidx hok, hdrop, roundtrip_str v _ h3]

theorem claimC6_core (t : Int) (v : String) (init : PrometheusValue)
    (h1 : -(2 ^ 63) ≤ t) (h2 : t < 2 ^ 63) (h3 : goParseFloatOk v.data = true) :
    pvLoop (trimCh (encodeTuple t v).data) .start (some init) = (some ⟨t, v⟩, .ok) := by
  have henc : (encodeTuple t v).data =
      '[' :: (intDecCh t ++ (',' :: ('"' :: (v.data ++ ['"', ']'])))) := by
    show '[' :: intDecCh t ++ ',' :: '"' :: v.data ++ ['"', ']'] = _
    simp
  have hmid : ∃ mid, intDecCh t ++ (',' :: ('"' :: (v.data ++ ['"', ']']))) =
      mid ++ [']'] ∧ mid = intDecCh t ++ (',' :: ('"' :: (v.data ++ ['"']))) := by
    refine ⟨intDecCh t ++ (',' :: ('"' :: (v.data ++ ['"']))), by simp, rfl⟩
  obtain ⟨mid, hm1, _⟩ := hmid
  have htrim0 : trimCh (encodeTuple t v).data = (encodeTuple t v).data := by
    rw [henc, hm1]
    have hsplit : ('[' :: (mid ++ [']']) : List Char) = '[' :: (mid ++ [']']) := rfl
    rw [trimCh_sandwich (by rfl) (by rfl)]
  rw [htrim0, henc, pvLoop_open_some]
  obtain ⟨c0, dr, hd0⟩ : ∃ c0 dr, intDecCh t = c0 :: dr := by
    rcases he : intDecCh t with _ | ⟨c0, dr⟩
    · exact absurd he (intDecCh_ne_nil t)
    · exact ⟨c0, dr, rfl⟩
  have hc0 : isDigitCh c0 = true ∨ c0 = '-' :=
    intDecCh_chars t c0 (by rw [hd0]; simp)
  have hc0space : isGoSpace c0 = false := by
    rcases hc0 with h | rfl
    · exact digit_not_space h
    · rfl
  have htrim1 : trimCh (intDecCh t ++ (',' :: ('"' :: (v.data ++ ['"', ']'])))) =
      intDecCh t ++ (',' :: ('"' :: (v.data ++ ['"', ']']))) := by
    have hsplit : (intDecCh t ++ (',' :: ('"' :: (v.data ++ ['"', ']']))) : List Char) =
        c0 :: ((dr ++ (',' :: ('"' :: (v.data ++ ['"'])))) ++ [']']) := by
      rw [hd0]; simp
    rw [hsplit, trimCh_sandwich hc0space (by rfl), ← hsplit]
  rw [htrim1, roundtrip_num t v init h1 h2 h3]

/-! ### Claim theorems for the tuple decoder -/

/-- Claim C6: for every signed 64-bit integer timestamp and every value
string that parses as a finite decimal float — syntactically a decimal
float and within float64 range, so that `strconv.ParseFloat(s, 64)`
returns a nil error — encoding the tuple value to its JSON wire form
(`[<timestamp>, "<value>"]`) and then decoding that encoding yields
exactly the original timestamp and the identical value string (the
repository has no tuple encoder; the wire form is modelled from the
spec). -/
theorem claimC6 (t : Int) (v : String) (init : PrometheusValue)
    (h1 : -(2 ^ 63) ≤ t) (h2 : t < 2 ^ 63) (h3 : goParseFloatOk v.data = true) :
    PrometheusValue.UnmarshalJSON (some init) (encodeTuple t v).data =
      (some ⟨t, v⟩, .ok) := by
  have hne1 : (encodeTuple t v).data ≠ "null".data := by
    intro heq
    have hnull : "null".data = ['n', 'u', 'l', 'l'] := rfl
    have henc : (encodeTuple t v).data =
        '[' :: (intDecCh t ++ (',' :: ('"' :: (v.data ++ ['"', ']'])))) := by
      show '[' :: intDecCh t ++ ',' :: '"' :: v.data ++ ['"', ']'] = _
      simp
    rw [hnull, henc] at heq
    injection heq with hh _
    exact absurd hh (by decide)
  have hne2 : (encodeTuple t v).data ≠ "[]".data := by
    intro heq
    have hbr : "[]".data = ['[', ']'] := rfl
    have henc : (encodeTuple t v).data =
        '[' :: (intDecCh t ++ (',' :: ('"' :: (v.data ++ ['"', ']'])))) := by
      show '[' :: intDecCh t ++ ',' :: '"' :: v.data ++ ['"', ']'] = _
      simp
    rw [hbr, henc] at heq
    injection heq with _ ht
    have hlen := congrArg List.length ht
    simp at hlen
    have hd : 0 < (intDecCh t).length := List.length_pos.mpr (intDecCh_ne_nil t)
    omega
  unfold PrometheusValue.UnmarshalJSON
  rw [if_neg hne1, if_neg hne2]
  exact claimC6_core t v init h1 h2 h3

/-- Witness for C6: the round trip at timestamp 1620000000 and value
string "42.5", starting from a populated destination. -/
theorem claimC6_witness :
    PrometheusValue.UnmarshalJSON (some ⟨0, "x"⟩) (encodeTuple 1620000000 "42.5").data =
      (some ⟨1620000000, "42.5"⟩, .ok) :=
  claimC6 1620000000 "42.5" ⟨0, "x"⟩ (by decide) (by decide) (by decide)

/-- Claim C7: each of the malformed tuple inputs `[]`, `[1]`, `[1,]`,
`[1, ]`, the unterminated `[1,` and the internally-padded quoted number
`[1, " 1 "]` is rejected with a non-nil error; the destination keeps its
prior contents except for fields parsed before the point of failure
(`[1,` and later shapes set Timestamp to 1 while Value keeps its prior
content); and `[]` is rejected with a distinct "unexpected value" error,
different from every other error here. -/
theorem claimC7 :
    (PrometheusValue.UnmarshalJSON (some ⟨7, "test"⟩) "[]".data =
      (some ⟨7, "test"⟩, .err "unexpected value")) ∧
    (PrometheusValue.UnmarshalJSON (some ⟨7, "test"⟩) "[1]".data =
      (some ⟨7, "test"⟩,
        .err "expected [<timestamp int>, \"<number string>\"], could not find comma")) ∧
    (PrometheusValue.UnmarshalJSON (some ⟨7, "test"⟩) "[1,]".data =
      (some ⟨1, "test"⟩, .err "unexpected character ] in state 2")) ∧
    (PrometheusValue.UnmarshalJSON (some ⟨7, "test"⟩) "[1, ]".data =
      (some ⟨1, "test"⟩,
        .err "expected [<timestamp int>, \"<number string>\"], could not find number string")) ∧
    (PrometheusValue.UnmarshalJSON (some ⟨7, "test"⟩) "[1,".data =
      (some ⟨1, "test"⟩, .err "expected [<timestamp int>, \"<number string>\"]")) ∧
    (PrometheusValue.UnmarshalJSON (some ⟨7, "test"⟩) "[1, \" 1 \"]".data =
      (some ⟨1, "test"⟩,
        .err "expected [<timestamp int>, \"<number string>\"], number was not a valid float64: whitespace in string")) ∧
    ("unexpected value" ≠ "expected [<timestamp int>, \"<number string>\"], could not find comma" ∧
     "unexpected value" ≠ "unexpected character ] in state 2" ∧
     "unexpected value" ≠ "expected [<timestamp int>, \"<number string>\"], could not find number string" ∧
     "unexpected value" ≠ "expected [<timestamp int>, \"<number string>\"]" ∧
     "unexpected value" ≠ "expected [<timestamp int>, \"<number string>\"], number was not a valid float64: whitespace in string") := by
  decide

/-- Claim C8: decoding the JSON literal `null` into any (non-nil)
destination succeeds and leaves both fields exactly unchanged, whether the
destination was previously empty or populated. -/
theorem claimC8 (pv : PrometheusValue) :
    PrometheusValue.UnmarshalJSON (some pv) "null".data = (some pv, .ok) := by
  unfold PrometheusValue.UnmarshalJSON
  rw [if_pos rfl]

/-- Claim C10: through a nil receiver, `null` succeeds and the exact
two-byte `[]` errors, both leaving the receiver untouched; but every other
input whose whitespace-trimmed form begins with `[` reaches the
`l == nil` guard, which assigns through the nil receiver and crashes
instead of returning an error. -/
theorem claimC10 :
    (PrometheusValue.UnmarshalJSON none "null".data = (none, .ok)) ∧
    (PrometheusValue.UnmarshalJSON none "[]".data = (none, .err "unexpected value")) ∧
    (∀ data : List Char, data ≠ "null".data → data ≠ "[]".data →
      (trimCh data).head? = some '[' →
      PrometheusValue.UnmarshalJSON none data = (none, .panicked)) := by
  refine ⟨by decide, by decide, ?_⟩
  intro data hn1 hn2 hhead
  unfold PrometheusValue.UnmarshalJSON
  rw [if_neg hn1, if_neg hn2]
  rcases htr : trimCh data with _ | ⟨c, rest⟩
  · rw [htr] at hhead; cases hhead
  · rw [htr] at hhead
    have hc : c = '[' := by
      simpa using hhead
    subst hc
    exact pvLoop_open_none rest

/-- Witness for C10: the unterminated input `[1` with a nil receiver
crashes. -/
theorem claimC10_witness :
    PrometheusValue.UnmarshalJSON none "[1".data = (none, .panicked) :=
  claimC10.2.2 "[1".data (by decide) (by decide) (by decide)

/-! ### Write-precondition lemmas (claim C1) -/

theorem indexFinishedBranch_conditional (e : GCSEvent) (c : ObjectContent) :
    ∀ w ∈ (indexFinishedBranch e c).1, w.ifNotExists = true := by
  intro w hw
  unfold indexFinishedBranch at hw
  by_cases hlen : (goSplitSlash e.Name).length < 4
  · simp [hlen] at hw
  · simp only [if_neg hlen] at hw
    repeat' split at hw
    all_goals simp_all

theorem indexMetricsBranch_conditional (e : GCSEvent) (c : ObjectContent) :
    ∀ w ∈ (indexMetricsBranch e c).1, w.ifNotExists = true := by
  intro w hw
  unfold indexMetricsBranch at hw
  by_cases hlen : (goSplitSlash e.Name).length < 4
  · simp [hlen] at hw
  · simp only [if_neg hlen] at hw
    repeat' split at hw
    all_goals simp_all

/-- Claim C1, counterexample to the claim as stated: at a concrete failed
completed job, the job-failures variant (`RecordFailingJob`) performs its
single publication with an unconditional write — no create-if-absent
precondition — contradicting "no publication path ever performs an
unconditional overwrite". -/
theorem claimC1_counterexample :
    (RecordFailingJob ⟨"logs/my-job/55/finished.json", "b"⟩
        ⟨"RAW", .ok ⟨some 1620000000, some false⟩, []⟩).1.map Write.ifNotExists =
      [false] := by
  decide

/-- Claim C1 (amended): the two publications of `IndexJobs` (job-state and
job-metrics) always carry the create-if-absent precondition, but the
job-failures variant `RecordFailingJob` always writes unconditionally, so
at-most-one-success holds only for the former two. -/
theorem claimC1_amended (e : GCSEvent) (c : ObjectContent) :
    (∀ w ∈ (IndexJobs e c).1, w.ifNotExists = true) ∧
    (∀ w ∈ (RecordFailingJob e c).1, w.ifNotExists = false) := by
  constructor
  · intro w hw
    unfold IndexJobs at hw
    by_cases h1 : pathBase e.Name = "finished.json"
    · rw [if_pos h1] at hw
      exact indexFinishedBranch_conditional e c w hw
    · rw [if_neg h1] at hw
      by_cases h2 : pathBase e.Name = "job_metrics.json"
      · rw [if_pos h2] at hw
        exact indexMetricsBranch_conditional e c w hw
      · rw [if_neg h2] at hw
        simp at hw
  · intro w hw
    unfold RecordFailingJob at hw
    by_cases hlen : (goSplitSlash e.Name).length < 4
    · simp [hlen] at hw
    · simp only [if_neg hlen] at hw
      repeat' split at hw
      all_goals simp_all

/-- Witness for (amended) C1: a concrete successful job-state publication
carries the precondition, and the concrete job-failures publication does
not. -/
theorem claimC1_witness :
    ((IndexJobs ⟨"logs/my-job/55/finished.json", "b"⟩
        ⟨"RAW", .ok ⟨some 1620000000, some true⟩, []⟩).1.all Write.ifNotExists = true) ∧
    ((RecordFailingJob ⟨"logs/my-job/55/finished.json", "b"⟩
        ⟨"RAW", .ok ⟨some 1620000000, some false⟩, []⟩).1.all
          (fun w => !w.ifNotExists) = true) := by
  have h1 := claimC1_amended ⟨"logs/my-job/55/finished.json", "b"⟩
    ⟨"RAW", .ok ⟨some 1620000000, some true⟩, []⟩
  have h2 := claimC1_amended ⟨"logs/my-job/55/finished.json", "b"⟩
    ⟨"RAW", .ok ⟨some 1620000000, some false⟩, []⟩
  constructor
  · exact List.all_eq_true.mpr (fun w hw => by simp [h1.1 w hw])
  · exact List.all_eq_true.mpr (fun w hw => by simp [h2.2 w hw])

/-! ### Claims C2 and C9: required-metric gate and silent no-ops -/

/-- Claim C2: a job_metrics.json invocation that reaches consolidation
(release job under logs/ with a well-formed path, stream decoded) and
whose consolidated output map lacks "job:duration:total:seconds" returns
the fatal missing-metric error and performs zero index writes. -/
theorem claimC2 (e : GCSEvent) (c : ObjectContent) (m : MetricsDoc)
    (hbase : pathBase e.Name = "job_metrics.json")
    (hlen : ¬ (goSplitSlash e.Name).length < 4)
    (hlogs : (goSplitSlash e.Name).getD 0 "" = "logs")
    (hjob : (goHasPrefixStr "periodic-ci-openshift-release-" ((goSplitSlash e.Name).getD 1 "") ||
             goHasPrefixStr "release-openshift-" ((goSplitSlash e.Name).getD 1 "")) = true)
    (hdec : decodeStream c.asMetricsFragments 0 [] = .ok m)
    (hmiss : mapLookup "job:duration:total:seconds" (consolidate m).1 = none) :
    IndexJobs e c =
      ([], some "job not indexed, does not have metric \"job:duration:total:seconds\"") := by
  unfold IndexJobs
  rw [hbase]
  rw [if_neg (by decide), if_pos rfl]
  unfold indexMetricsBranch
  rw [if_neg hlen, if_pos hlogs, if_pos hjob, hdec]
  simp only [hmiss]

/-- Witness for C2: a release job whose metrics stream decodes to the
empty document is rejected with the missing-metric error and no writes. -/
theorem claimC2_witness :
    IndexJobs ⟨"logs/periodic-ci-openshift-release-x/1/job_metrics.json", "b"⟩
        ⟨"", .ok ⟨none, none⟩, []⟩ =
      ([], some "job not indexed, does not have metric \"job:duration:total:seconds\"") :=
  claimC2 ⟨"logs/periodic-ci-openshift-release-x/1/job_metrics.json", "b"⟩
    ⟨"", .ok ⟨none, none⟩, []⟩ [] (by decide) (by decide) (by decide) (by decide)
    rfl (by decide)

/-- Claim C9: IndexJobs returns no error and performs no write when the
path has fewer than four slash-separated segments; when a decoded
finished.json has an absent or zero timestamp; and when a
job_metrics.json path is not under the log root "logs" or its job segment
matches neither accepted release prefix. -/
theorem claimC9 (e : GCSEvent) (c : ObjectContent) :
    ((goSplitSlash e.Name).length < 4 → IndexJobs e c = ([], none)) ∧
    (∀ f : Finished, pathBase e.Name = "finished.json" → c.asFinished = .ok f →
      (f.Timestamp = none ∨ f.Timestamp = some 0) → IndexJobs e c = ([], none)) ∧
    (pathBase e.Name = "job_metrics.json" →
      ((goSplitSlash e.Name).getD 0 "" ≠ "logs" ∨
       ((goHasPrefixStr "periodic-ci-openshift-release-" ((goSplitSlash e.Name).getD 1 "") ||
         goHasPrefixStr "release-openshift-" ((goSplitSlash e.Name).getD 1 "")) = false)) →
      IndexJobs e c = ([], none)) := by
  refine ⟨?_, ?_, ?_⟩
  · intro hlen
    unfold IndexJobs indexFinishedBranch indexMetricsBranch
    by_cases h1 : pathBase e.Name = "finished.json"
    · simp [h1, hlen]
    · by_cases h2 : pathBase e.Name = "job_metrics.json" <;> simp [h1, h2, hlen]
  · intro f hbase hdec hts
    unfold IndexJobs indexFinishedBranch
    rw [hbase, if_pos rfl]
    by_cases hlen : (goSplitSlash e.Name).length < 4
    · simp [hlen]
    · rw [if_neg hlen, hdec]
      rcases hts with h | h <;> simp [h]
  · intro hbase hfilter
    unfold IndexJobs indexMetricsBranch
    rw [hbase]
    rw [if_neg (by decide), if_pos rfl]
    by_cases hlen : (goSplitSlash e.Name).length < 4
    · simp [hlen]
    · rw [if_neg hlen]
      rcases hfilter with h | h
      · rw [if_neg h]
      · by_cases hlogs : (goSplitSlash e.Name).getD 0 "" = "logs"
        · rw [if_pos hlogs, if_neg (by rw [h]; simp)]
        · rw [if_neg hlogs]

/-- Witness for C9: a two-segment path, a pending job, and a non-release
job_metrics.json path each produce a silent no-op. -/
theorem claimC9_witness :
    (IndexJobs ⟨"a/finished.json", "b"⟩ ⟨"", .ok ⟨some 5, some true⟩, []⟩ = ([], none)) ∧
    (IndexJobs ⟨"logs/j/1/finished.json", "b"⟩ ⟨"", .ok ⟨none, none⟩, []⟩ = ([], none)) ∧
    (IndexJobs ⟨"logs/my-job/55/job_metrics.json", "b"⟩ ⟨"", .ok ⟨some 5, some true⟩, []⟩ =
      ([], none)) :=
  ⟨(claimC9 ⟨"a/finished.json", "b"⟩ ⟨"", .ok ⟨some 5, some true⟩, []⟩).1 (by decide),
   (claimC9 ⟨"logs/j/1/finished.json", "b"⟩ ⟨"", .ok ⟨none, none⟩, []⟩).2.1
     ⟨none, none⟩ (by decide) rfl (Or.inl rfl),
   (claimC9 ⟨"logs/my-job/55/job_metrics.json", "b"⟩ ⟨"", .ok ⟨some 5, some true⟩, []⟩).2.2
     (by decide) (Or.inr (by decide))⟩

/-! ### Claim C5: streamed decode with last-write-wins merge -/

theorem mapLookup_insert_self {α : Type} (k : String) (v : α) (m : List (String × α)) :
    mapLookup k (mapInsert k v m) = some v := by
  induction m with
  | nil => simp [mapInsert, mapLookup]
  | cons kv tl ih =>
    by_cases h : kv.1 = k
    · simp [mapInsert, h, mapLookup]
    · simp [mapInsert, h, mapLookup, ih]

theorem mapLookup_insert_ne {α : Type} (k k' : String) (v : α) (m : List (String × α))
    (h : k ≠ k') :
    mapLookup k' (mapInsert k v m) = mapLookup k' m := by
  induction m with
  | nil => simp [mapInsert, mapLookup, h]
  | cons kv tl ih =>
    obtain ⟨k0, v0⟩ := kv
    by_cases h2 : k0 = k
    · subst h2
      simp [mapInsert, mapLookup, h, ih]
    · by_cases h3 : k0 = k' <;> simp [mapInsert, h2, mapLookup, h3, ih, Ne.symm h]

theorem lastVal_mergeDoc {α : Type} (k : String) (d acc : List (String × α)) :
    mapLookup k (d.foldl (fun m kv => mapInsert kv.1 kv.2 m) acc) =
      (match lastVal k d with
       | some w => some w
       | none => mapLookup k acc) := by
  induction d generalizing acc with
  | nil => simp [lastVal]
  | cons kv tl ih =>
    show mapLookup k (tl.foldl _ (mapInsert kv.1 kv.2 acc)) = _
    rw [ih]
    rcases hl : lastVal k tl with _ | w
    · show mapLookup k (mapInsert kv.1 kv.2 acc) = _
      by_cases hk : kv.1 = k
      · subst hk
        rw [mapLookup_insert_self]
        simp [lastVal, hl]
      · rw [mapLookup_insert_ne _ _ _ _ hk]
        simp [lastVal, hl, hk]
    · simp [lastVal, hl]

theorem mergeDoc_lookup (k : String) (acc d : MetricsDoc) :
    mapLookup k (mergeDoc acc d) =
      (match lastVal k d with
       | some w => some w
       | none => mapLookup k acc) := by
  unfold mergeDoc
  rw [lastVal_mergeDoc]
  rcases lastVal k d with _ | w <;> rfl

theorem lastVal_append {α : Type} (k : String) (d1 d2 : List (String × α)) :
    lastVal k (d1 ++ d2) =
      (match lastVal k d2 with
       | some w => some w
       | none => lastVal k d1) := by
  induction d1 with
  | nil => simp [lastVal]; rcases lastVal k d2 <;> rfl
  | cons kv tl ih =>
    show lastVal k (kv :: (tl ++ d2)) = _
    rcases h2 : lastVal k d2 with _ | w
    · simp [lastVal, ih, h2]
    · simp [lastVal, ih, h2]

theorem foldl_merge_lookup (k : String) (ds : List MetricsDoc) :
    ∀ acc, mapLookup k (ds.foldl mergeDoc acc) =
      (match lastVal k ds.flatten with
       | some w => some w
       | none => mapLookup k acc) := by
  induction ds with
  | nil => intro acc; simp [lastVal]
  | cons d tl ih =>
    intro acc
    show mapLookup k (tl.foldl mergeDoc (mergeDoc acc d)) = _
    rw [ih, mergeDoc_lookup]
    have hf : (d :: tl).flatten = d ++ tl.flatten := by simp
    rw [hf, lastVal_append]
    rcases lastVal k tl.flatten with _ | w <;> rcases lastVal k d with _ | w2 <;> rfl

theorem decodeStream_all_ok (ds : List MetricsDoc) :
    ∀ (rows : Nat) (acc : MetricsDoc),
      decodeStream (ds.map Except.ok) rows acc = .ok (ds.foldl mergeDoc acc) := by
  induction ds with
  | nil => intro rows acc; rfl
  | cons d tl ih => intro rows acc; exact ih (rows + 1) (mergeDoc acc d)

theorem decodeStream_error (ds : List MetricsDoc) :
    ∀ (rows : Nat) (msg : String) (rest : List (Except String MetricsDoc)) (acc : MetricsDoc),
      decodeStream (ds.map Except.ok ++ .error msg :: rest) rows acc =
        .error ("failed to decode metric on line " ++ natDecStr (rows + ds.length + 1) ++
          ": " ++ msg) := by
  induction ds with
  | nil => intro rows msg rest acc; rfl
  | cons d tl ih =>
    intro rows msg rest acc
    show decodeStream (tl.map Except.ok ++ .error msg :: rest) (rows + 1) (mergeDoc acc d) = _
    rw [ih]
    have harith : rows + 1 + tl.length + 1 = rows + (d :: tl).length + 1 := by
      simp; omega
    rw [harith]

/-- Claim C5: the metric consolidator decodes concatenated fragments until
end of input, merging into one document with later fragments overwriting
earlier ones per query name (the final binding of each key is the last
occurrence across the concatenation); the first fragment that fails to
decode is fatal and the error names its 1-based ordinal. -/
theorem claimC5 :
    (∀ (ds : List MetricsDoc) (k : String),
      decodeStream (ds.map Except.ok) 0 [] = .ok (ds.foldl mergeDoc []) ∧
      mapLookup k (ds.foldl mergeDoc []) = lastVal k ds.flatten) ∧
    (∀ (ds : List MetricsDoc) (msg : String) (rest : List (Except String MetricsDoc)),
      decodeStream (ds.map Except.ok ++ .error msg :: rest) 0 [] =
        .error ("failed to decode metric on line " ++ natDecStr (ds.length + 1) ++
          ": " ++ msg)) := by
  constructor
  · intro ds k
    refine ⟨decodeStream_all_ok ds 0 [], ?_⟩
    rw [foldl_merge_lookup]
    rcases lastVal k ds.flatten with _ | w <;> rfl
  · intro ds msg rest
    rw [decodeStream_error ds 0 msg rest []]
    have h0 : 0 + ds.length + 1 = ds.length + 1 := by omega
    rw [h0]

/-! ### Claim C4: consolidator series handling -/
theorem consolidateLoop_cons (name label : String) (i : Nat) (s : PrometheusMetric)
    (tl : List PrometheusMetric) (acc : List (String × OutputMetric)) (warns : List Warning) :
    consolidateLoop name label i (s :: tl) acc warns =
      (let lab := if label = "" then
          (match s.Metric.head? with
           | some kv => kv.1
           | none => "")
        else label;
       if lab = "" then consolidateLoop name "" (i + 1) tl acc warns
       else
         match mapLookup lab s.Metric with
         | none => consolidateLoop name lab (i + 1) tl acc (warns ++ [⟨i, name, lab⟩])
         | some value =>
           consolidateLoop name lab (i + 1) tl
             (mapInsert (compositeKey name lab value)
               ⟨s.Value.Timestamp, s.Value.Value⟩ acc) warns) := rfl

theorem cl_step_none (name : String) (i : Nat) (s : PrometheusMetric)
    (tl : List PrometheusMetric) (acc : List (String × OutputMetric)) (warns : List Warning)
    (hm : s.Metric.head? = none) :
    consolidateLoop name "" i (s :: tl) acc warns =
      consolidateLoop name "" (i + 1) tl acc warns := by
  simp [consolidateLoop_cons, hm]

theorem cl_step_emptykey (name : String) (i : Nat) (s : PrometheusMetric)
    (tl : List PrometheusMetric) (acc : List (String × OutputMetric)) (warns : List Warning)
    (kv : String × String) (hm : s.Metric.head? = some kv) (hk : kv.1 = "") :
    consolidateLoop name "" i (s :: tl) acc warns =
      consolidateLoop name "" (i + 1) tl acc warns := by
  simp [consolidateLoop_cons, hm, hk]

theorem findRep_cons_none (i : Nat) (s : PrometheusMetric) (tl : List PrometheusMetric)
    (hm : s.Metric.head? = none) : findRep i (s :: tl) = findRep (i + 1) tl := by
  conv_lhs => unfold findRep
  rw [hm]

theorem findRep_cons_emptykey (i : Nat) (s : PrometheusMetric) (tl : List PrometheusMetric)
    (kv : String × String) (hm : s.Metric.head? = some kv) (hk : kv.1 = "") :
    findRep i (s :: tl) = findRep (i + 1) tl := by
  conv_lhs => unfold findRep
  rw [hm]
  simp [hk]

theorem findRep_cons_found (i : Nat) (s : PrometheusMetric) (tl : List PrometheusMetric)
    (kv : String × String) (hm : s.Metric.head? = some kv) (hk : kv.1 ≠ "") :
    findRep i (s :: tl) = some (i, kv.1, s :: tl) := by
  conv_lhs => unfold findRep
  rw [hm]
  simp [hk]

theorem cl_step_select (name : String) (i : Nat) (s : PrometheusMetric)
    (tl : List PrometheusMetric) (acc : List (String × OutputMetric)) (warns : List Warning)
    (kv : String × String) (hm : s.Metric.head? = some kv) (hk : kv.1 ≠ "") :
    consolidateLoop name "" i (s :: tl) acc warns =
      consolidateLoop name kv.1 i (s :: tl) acc warns := by
  simp [consolidateLoop_cons, hm, hk]

theorem cl_step_label_none (name lab : String) (i : Nat) (s : PrometheusMetric)
    (tl : List PrometheusMetric) (acc : List (String × OutputMetric)) (warns : List Warning)
    (hlab : lab ≠ "") (hlk : mapLookup lab s.Metric = none) :
    consolidateLoop name lab i (s :: tl) acc warns =
      consolidateLoop name lab (i + 1) tl acc (warns ++ [⟨i, name, lab⟩]) := by
  simp [consolidateLoop_cons, hlab, hlk]

theorem cl_step_label_some (name lab value : String) (i : Nat) (s : PrometheusMetric)
    (tl : List PrometheusMetric) (acc : List (String × OutputMetric)) (warns : List Warning)
    (hlab : lab ≠ "") (hlk : mapLookup lab s.Metric = some value) :
    consolidateLoop name lab i (s :: tl) acc warns =
      consolidateLoop name lab (i + 1) tl
        (mapInsert (compositeKey name lab value)
          ⟨s.Value.Timestamp, s.Value.Value⟩ acc) warns := by
  simp [consolidateLoop_cons, hlab, hlk]

theorem emitWithLabel_cons (name rep : String) (i : Nat) (s : PrometheusMetric)
    (tl : List PrometheusMetric) (acc : List (String × OutputMetric)) (warns : List Warning) :
    emitWithLabel name rep i (s :: tl) acc warns =
      (match mapLookup rep s.Metric with
       | none => emitWithLabel name rep (i + 1) tl acc (warns ++ [⟨i, name, rep⟩])
       | some value =>
         emitWithLabel name rep (i + 1) tl
           (mapInsert (compositeKey name rep value)
             ⟨s.Value.Timestamp, s.Value.Value⟩ acc) warns) := rfl

theorem findRep_key_ne :
    ∀ (rs : List PrometheusMetric) (i j : Nat) (rep : String)
      (sfx : List PrometheusMetric),
      findRep i rs = some (j, rep, sfx) → rep ≠ "" := by
  intro rs
  induction rs with
  | nil => intro i j rep sfx h; cases h
  | cons s tl ih =>
    intro i j rep sfx h
    rcases hm : s.Metric.head? with _ | kv
    · rw [findRep_cons_none i s tl hm] at h
      exact ih (i + 1) j rep sfx h
    · by_cases hk : kv.1 = ""
      · rw [findRep_cons_emptykey i s tl kv hm hk] at h
        exact ih (i + 1) j rep sfx h
      · rw [findRep_cons_found i s tl kv hm hk] at h
        simp only [Option.some.injEq, Prod.mk.injEq] at h
        obtain ⟨-, h2, -⟩ := h
        rw [← h2]
        exact hk

theorem consolidateLoop_emit (name rep : String) (hrep : rep ≠ "") :
    ∀ (rs : List PrometheusMetric) (i : Nat) (acc : List (String × OutputMetric))
      (warns : List Warning),
      consolidateLoop name rep i rs acc warns = emitWithLabel name rep i rs acc warns := by
  intro rs
  induction rs with
  | nil => intro i acc warns; rfl
  | cons s tl ih =>
    intro i acc warns
    rw [emitWithLabel_cons]
    rcases hlk : mapLookup rep s.Metric with _ | value
    · rw [cl_step_label_none name rep i s tl acc warns hrep hlk, ih]
    · rw [cl_step_label_some name rep value i s tl acc warns hrep hlk, ih]

theorem consolidateLoop_select (name : String) :
    ∀ (rs : List PrometheusMetric) (i : Nat) (acc : List (String × OutputMetric))
      (warns : List Warning),
      consolidateLoop name "" i rs acc warns =
        (match findRep i rs with
         | none => (acc, warns)
         | some jrs => consolidateLoop name jrs.2.1 jrs.1 jrs.2.2 acc warns) := by
  intro rs
  induction rs with
  | nil => intro i acc warns; rfl
  | cons s tl ih =>
    intro i acc warns
    rcases hm : s.Metric.head? with _ | kv
    · rw [cl_step_none name i s tl acc warns hm, ih, findRep_cons_none i s tl hm]
    · by_cases hk : kv.1 = ""
      · rw [cl_step_emptykey name i s tl acc warns kv hm hk, ih,
          findRep_cons_emptykey i s tl kv hm hk]
      · rw [findRep_cons_found i s tl kv hm hk]
        exact cl_step_select name i s tl acc warns kv hm hk

theorem consolidateLoop_spec (name : String) (rs : List PrometheusMetric)
    (acc : List (String × OutputMetric)) (warns : List Warning) :
    consolidateLoop name "" 0 rs acc warns = specSeries name rs (acc, warns) := by
  rw [consolidateLoop_select]
  unfold specSeries
  rcases hfr : findRep 0 rs with _ | jrs
  · rfl
  · obtain ⟨j, rep, sfx⟩ := jrs
    exact consolidateLoop_emit name rep
      (findRep_key_ne rs 0 j rep sfx hfr) sfx j acc warns

theorem consolidateEntry_spec :
    consolidateEntry = consolidateSpecEntry := by
  funext acc nv
  unfold consolidateEntry consolidateSpecEntry
  by_cases h1 : nv.2.Status ≠ "success"
  · simp [h1]
  · simp only [h1, if_false]
    by_cases h2 : nv.2.Data.ResultType ≠ "vector"
    · simp [h2]
    · simp only [h2, if_false]
      rcases hr : nv.2.Data.Result with _ | ⟨r, tl⟩
      · rfl
      · rcases tl with _ | ⟨r2, tl2⟩
        · by_cases hm : r.Metric.isEmpty
          · simp [hm]
          · simp only [hm, if_false, Bool.false_eq_true]
            exact consolidateLoop_spec nv.1 [r] acc.1 acc.2
        · exact consolidateLoop_spec nv.1 (r :: r2 :: tl2) acc.1 acc.2

/-- Claim C4 (amended): per query-name entry the consolidator skips
non-success, non-vector and empty results; a single unlabeled series is
published under the bare query name; otherwise the representative label is
the first nonempty key yielded by scanning the series' label maps in
order, series scanned before that selection are dropped silently, and
from the selection point on every series is published under the composite
key name(label="value") or dropped with a warning naming its index and
the query name when it lacks the representative label. -/
theorem claimC4_amended (metrics : MetricsDoc) :
    consolidate metrics = consolidateSpec metrics := by
  unfold consolidate consolidateSpec
  rw [consolidateEntry_spec]

/-- Claim C4, counterexample to the claim as stated: a query with two
series, the first unlabeled and the second labeled a="x", publishes under
a composite key built from the second series' label (not a key found by
scanning the label map of the first series, which is empty) and emits no
warning at all, although the first series lacks the representative label
and the claim requires a warning naming it. -/
theorem claimC4_counterexample :
    consolidate [("m", ⟨"success", ⟨"vector",
        [⟨[], ⟨1, "1"⟩⟩, ⟨[("a", "x")], ⟨2, "2"⟩⟩]⟩⟩)] =
      ([("m\x7ba=\"x\"\x7d", ⟨2, "2"⟩)], []) := by
  decide

/-! ### Claim C3: the published job-state record and its path -/

theorem strEq_of_data {a b : String} (h : a.data = b.data) : a = b := by
  cases a
  cases b
  exact congrArg String.mk h

theorem splitOnChar_ne_nil (c : Char) : ∀ l : List Char, splitOnChar c l ≠ [] := by
  intro l
  induction l with
  | nil => simp [splitOnChar]
  | cons x xs ih =>
    by_cases hx : x = c
    · simp [splitOnChar, hx]
    · simp only [splitOnChar, if_neg hx]
      rcases hsp : splitOnChar c xs with _ | ⟨s, t⟩
      · simp
      · simp

theorem splitOnChar_no_sep (c : Char) : ∀ l : List Char, ∀ s ∈ splitOnChar c l, c ∉ s := by
  intro l
  induction l with
  | nil =>
    intro s hs
    simp [splitOnChar] at hs
    subst hs
    simp
  | cons x xs ih =>
    intro s hs
    by_cases hx : x = c
    · simp only [splitOnChar, if_pos hx] at hs
      rcases List.mem_cons.mp hs with rfl | h
      · simp
      · exact ih s h
    · simp only [splitOnChar, if_neg hx] at hs
      rcases hsp : splitOnChar c xs with _ | ⟨s0, t⟩
      · exact absurd hsp (splitOnChar_ne_nil c xs)
      · rw [hsp] at hs
        rcases List.mem_cons.mp hs with rfl | h
        · intro hm
          rcases List.mem_cons.mp hm with rfl | hm2
          · exact hx rfl
          · exact ih s0 (by rw [hsp]; simp) hm2
        · exact ih s (by rw [hsp]; exact List.mem_cons_of_mem s0 h)

theorem splitOnChar_single (c : Char) (s : List Char) (h : c ∉ s) :
    splitOnChar c s = [s] := by
  induction s with
  | nil => rfl
  | cons x xs ih =>
    have hx : x ≠ c := by rintro rfl; exact h (by simp)
    simp only [splitOnChar, if_neg hx]
    rw [ih (fun hm => h (by simp [hm]))]

theorem splitOnChar_sep_append (c : Char) (s ys : List Char) (h : c ∉ s) :
    splitOnChar c (s ++ c :: ys) = s :: splitOnChar c ys := by
  induction s with
  | nil => simp [splitOnChar]
  | cons x xs ih =>
    have hx : x ≠ c := by rintro rfl; exact h (by simp)
    have hstep : (x :: xs) ++ c :: ys = x :: (xs ++ c :: ys) := rfl
    rw [hstep]
    simp only [splitOnChar, if_neg hx]
    rw [ih (fun hm => h (by simp [hm]))]

theorem splitOnChar_joinSegsCh :
    ∀ segs : List (List Char), segs ≠ [] → (∀ s ∈ segs, '/' ∉ s) →
      splitOnChar '/' (joinSegsCh segs) = segs := by
  intro segs
  induction segs with
  | nil => intro h; cases h rfl
  | cons s t ih =>
    intro _ hall
    cases t with
    | nil => exact splitOnChar_single '/' s (hall s (by simp))
    | cons s2 t2 =>
      show splitOnChar '/' (s ++ '/' :: joinSegsCh (s2 :: t2)) = s :: s2 :: t2
      rw [splitOnChar_sep_append '/' s _ (hall s (by simp))]
      rw [ih (by simp) (fun x hx => hall x (by simp [hx]))]

theorem map_mk_data (l : List String) :
    List.map String.mk (List.map String.data l) = l := by
  induction l with
  | nil => rfl
  | cons s t ih =>
    show String.mk s.data :: List.map String.mk (List.map String.data t) = s :: t
    rw [string_mk_data, ih]

theorem goSplit_joinSlash (segs : List String) (hne : segs ≠ [])
    (hall : ∀ s ∈ segs, '/' ∉ s.data) :
    goSplitSlash (joinSlash segs) = segs := by
  unfold goSplitSlash joinSlash
  have hdata : (String.mk (joinSegsCh (segs.map String.data))).data =
      joinSegsCh (segs.map String.data) := rfl
  rw [hdata]
  rw [splitOnChar_joinSegsCh (segs.map String.data) (by simpa using hne)
    (by
      intro s hs
      obtain ⟨s0, hs0, rfl⟩ := List.mem_map.mp hs
      exact hall s0 hs0)]
  exact map_mk_data segs

theorem cleanFold_nice (rooted : Bool) :
    ∀ (segs : List String) (stack : List String),
      (∀ s ∈ segs, niceSeg s) →
      segs.foldl (cleanStep rooted) stack = segs.reverse ++ stack := by
  intro segs
  induction segs with
  | nil => intro stack _; simp
  | cons s t ih =>
    intro stack hall
    obtain ⟨h1, h2, h3, -⟩ := hall s (by simp)
    show t.foldl (cleanStep rooted) (cleanStep rooted stack s) = _
    have hcs : cleanStep rooted stack s = s :: stack := by
      unfold cleanStep
      rw [if_neg (by simp [h1, h2]), if_neg h3]
    rw [hcs, ih (s :: stack) (fun x hx => hall x (by simp [hx]))]
    simp

theorem head_append_ne_nil {d : List Char} (x : List Char) (h : d ≠ []) :
    (d ++ x).head? = d.head? := by
  cases d with
  | nil => cases h rfl
  | cons a t => rfl

theorem joinSegsCh_head (d : List Char) (rest : List (List Char)) (h : d ≠ []) :
    (joinSegsCh (d :: rest)).head? = d.head? := by
  cases rest with
  | nil => rfl
  | cons r t =>
    show (d ++ '/' :: joinSegsCh (r :: t)).head? = d.head?
    exact head_append_ne_nil _ h

theorem niceSeg_data_ne_nil {s : String} (h : niceSeg s) : s.data ≠ [] := by
  intro hd
  exact h.1 (strEq_of_data hd)

theorem joinSlash_ne_empty (s0 : String) (rest : List String) (h : niceSeg s0) :
    joinSlash (s0 :: rest) ≠ "" := by
  intro he
  have hd := congrArg String.data he
  have hh := joinSegsCh_head s0.data (rest.map String.data) (niceSeg_data_ne_nil h)
  rw [show (joinSlash (s0 :: rest)).data =
      joinSegsCh (s0.data :: rest.map String.data) from rfl] at hd
  rw [hd] at hh
  rcases hdat : s0.data with _ | ⟨c, t⟩
  · exact niceSeg_data_ne_nil h hdat
  · rw [hdat] at hh
    cases hh

theorem joinSlash_not_rooted (s0 : String) (rest : List String) (h : niceSeg s0) :
    ((joinSlash (s0 :: rest)).data.head? == some '/') = false := by
  have hh := joinSegsCh_head s0.data (rest.map String.data) (niceSeg_data_ne_nil h)
  rw [show (joinSlash (s0 :: rest)).data =
      joinSegsCh (s0.data :: rest.map String.data) from rfl]
  rw [hh]
  rcases hdat : s0.data with _ | ⟨c, t⟩
  · exact absurd hdat (niceSeg_data_ne_nil h)
  · have hc : c ≠ '/' := by
      intro hc
      exact h.2.2.2 (by rw [hdat, hc]; simp)
    simp [hc]

theorem pathClean_nice (segs : List String) (hne : segs ≠ [])
    (hall : ∀ s ∈ segs, niceSeg s) :
    pathClean (joinSlash segs) = joinSlash segs := by
  obtain ⟨s0, rest, rfl⟩ : ∃ s0 rest, segs = s0 :: rest := by
    rcases segs with _ | ⟨s0, rest⟩
    · cases hne rfl
    · exact ⟨s0, rest, rfl⟩
  have hnice0 := hall s0 (by simp)
  unfold pathClean
  rw [if_neg (joinSlash_ne_empty s0 rest hnice0)]
  rw [joinSlash_not_rooted s0 rest hnice0]
  have hsegs : (splitOnChar '/' (joinSlash (s0 :: rest)).data).map String.mk =
      s0 :: rest := by
    have := goSplit_joinSlash (s0 :: rest) (by simp)
      (fun s hs => (hall s hs).2.2.2)
    exact this
  rw [hsegs]
  dsimp only
  rw [cleanFold_nice false (s0 :: rest) [] hall]
  simp

theorem pathJoin_nice (segs : List String) (hne : segs ≠ [])
    (hall : ∀ s ∈ segs, niceSeg s) :
    pathJoin segs = joinSlash segs := by
  obtain ⟨s0, rest, rfl⟩ : ∃ s0 rest, segs = s0 :: rest := by
    rcases segs with _ | ⟨s0, rest⟩
    · cases hne rfl
    · exact ⟨s0, rest, rfl⟩
  unfold pathJoin
  have hd : (s0 :: rest).dropWhile (fun s => s = "") = s0 :: rest := by
    have h0 : (s0 = "") = False := by
      simp [(hall s0 (by simp)).1]
    simp [List.dropWhile, h0]
  rw [hd]
  exact pathClean_nice (s0 :: rest) (by simp) hall

theorem pad2_digits (n : Nat) : ∀ c ∈ pad2 n, isDigitCh c = true := by
  intro c hc
  unfold pad2 at hc
  rcases List.mem_append.mp hc with h | h
  · rw [List.eq_of_mem_replicate h]; rfl
  · exact natDecCh_digits n c h

theorem pad4_digits (n : Nat) : ∀ c ∈ pad4 n, isDigitCh c = true := by
  intro c hc
  unfold pad4 at hc
  rcases List.mem_append.mp hc with h | h
  · rw [List.eq_of_mem_replicate h]; rfl
  · exact natDecCh_digits n c h

theorem mem_append_class {P : Char → Prop} {l1 l2 : List Char}
    (h1 : ∀ c ∈ l1, P c) (h2 : ∀ c ∈ l2, P c) : ∀ c ∈ l1 ++ l2, P c :=
  fun c hc => (List.mem_append.mp hc).elim (h1 c) (h2 c)

theorem mem_cons_class {P : Char → Prop} {x : Char} {l : List Char}
    (h1 : P x) (h2 : ∀ c ∈ l, P c) : ∀ c ∈ x :: l, P c := by
  intro c hc
  rcases List.mem_cons.mp hc with rfl | h
  · exact h1
  · exact h2 c h

theorem rfcFormat_charclass (y : Int) (m d hh mm ss : Nat) :
    ∀ c ∈ (rfcFormat y m d hh mm ss).data,
      isDigitCh c = true ∨ c = '-' ∨ c = ':' ∨ c = 'T' ∨ c = 'Z' := by
  unfold rfcFormat
  show ∀ c ∈ ((if y < 0 then '-' :: pad4 y.natAbs else pad4 y.toNat) ++
    '-' :: pad2 m ++ '-' :: pad2 d ++
    'T' :: pad2 hh ++ ':' :: pad2 mm ++ ':' :: pad2 ss ++ ['Z']), _
  have hA : ∀ c ∈ (if y < 0 then '-' :: pad4 y.natAbs else pad4 y.toNat),
      isDigitCh c = true ∨ c = '-' ∨ c = ':' ∨ c = 'T' ∨ c = 'Z' := by
    by_cases hy : y < 0
    · rw [if_pos hy]
      exact mem_cons_class (by right; left; rfl)
        (fun c hc => Or.inl (pad4_digits _ c hc))
    · rw [if_neg hy]
      exact fun c hc => Or.inl (pad4_digits _ c hc)
  refine mem_append_class (mem_append_class (mem_append_class (mem_append_class
    (mem_append_class (mem_append_class hA ?_) ?_) ?_) ?_) ?_) ?_
  · exact mem_cons_class (by right; left; rfl) (fun c hc => Or.inl (pad2_digits _ c hc))
  · exact mem_cons_class (by right; left; rfl) (fun c hc => Or.inl (pad2_digits _ c hc))
  · exact mem_cons_class (by right; right; right; left; rfl)
      (fun c hc => Or.inl (pad2_digits _ c hc))
  · exact mem_cons_class (by right; right; left; rfl)
      (fun c hc => Or.inl (pad2_digits _ c hc))
  · exact mem_cons_class (by right; right; left; rfl)
      (fun c hc => Or.inl (pad2_digits _ c hc))
  · exact mem_cons_class (by right; right; right; right; rfl) (by intro c hc; cases hc)

theorem rfcFormat_has_Z (y : Int) (m d hh mm ss : Nat) :
    'Z' ∈ (rfcFormat y m d hh mm ss).data := by
  unfold rfcFormat
  show 'Z' ∈ ((if y < 0 then '-' :: pad4 y.natAbs else pad4 y.toNat) ++
    '-' :: pad2 m ++ '-' :: pad2 d ++
    'T' :: pad2 hh ++ ':' :: pad2 mm ++ ':' :: pad2 ss ++ ['Z'])
  simp

theorem rfc3339utc_nice (t : Int) : niceSeg (rfc3339utc t) := by
  have hcc : ∀ c ∈ (rfc3339utc t).data,
      isDigitCh c = true ∨ c = '-' ∨ c = ':' ∨ c = 'T' ∨ c = 'Z' :=
    rfcFormat_charclass _ _ _ _ _ _
  have hz : 'Z' ∈ (rfc3339utc t).data := rfcFormat_has_Z _ _ _ _ _ _
  refine ⟨?_, ?_, ?_, ?_⟩
  · intro he
    rw [he] at hz
    exact absurd hz (by decide)
  · intro he
    rw [he] at hz
    exact absurd hz (by decide)
  · intro he
    rw [he] at hz
    exact absurd hz (by decide)
  · intro hm
    rcases hcc '/' hm with h | h | h | h | h
    · cases h
    all_goals exact absurd h (by decide)

theorem joinSlash_five (a b c d e : String) :
    joinSlash [a, b, c, d, e] = a ++ "/" ++ b ++ "/" ++ c ++ "/" ++ d ++ "/" ++ e := by
  apply strEq_of_data
  rw [show (joinSlash [a, b, c, d, e]).data =
    a.data ++ '/' :: (b.data ++ '/' :: (c.data ++ '/' :: (d.data ++ '/' :: e.data)))
    from rfl]
  simp [String.data_append]

theorem pathJoin_state (k j b : String) (hk : niceSeg k) (hj : niceSeg j)
    (hb : niceSeg b) :
    pathJoin ["index", "job-state", k, j, b] =
      "index/job-state/" ++ k ++ "/" ++ j ++ "/" ++ b := by
  rw [pathJoin_nice ["index", "job-state", k, j, b] (by simp)
    (by
      intro s hs
      rcases List.mem_cons.mp hs with rfl | hs
      · decide
      rcases List.mem_cons.mp hs with rfl | hs
      · decide
      rcases List.mem_cons.mp hs with rfl | hs
      · exact hk
      rcases List.mem_cons.mp hs with rfl | hs
      · exact hj
      rcases List.mem_cons.mp hs with rfl | hs
      · exact hb
      · cases hs)]
  rw [joinSlash_five]
  apply strEq_of_data
  simp [String.data_append]


/-- Claim C3, counterexample to the claim as stated: scenario A's
artifacts-suffixed path takes job and build from the third- and
second-from-last segments, so the record lands at
index/job-state/2021-05-03T00:00:00Z/55/artifacts, not at the
index/job-state/2021-05-03T00:00:00Z/my-job/55 the spec gives; and a path
whose job segment is `..` is lexically cleaned by path.Join, so the index
path is not the literal concatenation the claim states. -/
theorem claimC3_counterexample :
    ((IndexJobs ⟨"logs/my-job/55/artifacts/finished.json", "b"⟩
        ⟨"RAW", .ok ⟨some 1620000000, some true⟩, []⟩).1.map Write.path =
      ["index/job-state/2021-05-03T00:00:00Z/55/artifacts"]) ∧
    ("index/job-state/2021-05-03T00:00:00Z/55/artifacts" ≠
      "index/job-state/2021-05-03T00:00:00Z/my-job/55") ∧
    ((IndexJobs ⟨"logs/../55/finished.json", "b"⟩
        ⟨"RAW", .ok ⟨some 1620000000, some true⟩, []⟩).1.map Write.path =
      ["index/job-state/55"]) ∧
    ("index/job-state/55" ≠ "index/job-state/2021-05-03T00:00:00Z/../55") := by
  decide

/-- Claim C3 (amended): for every finished.json event whose path has at
least four slash-separated segments and whose decoded timestamp is present
and nonzero, IndexJobs publishes exactly one job-state record with
create-if-absent, state error/success/failed as passed is null/true/false,
body {state, completed_at = timestamp, link = gs:// URI of the source
object's directory} and metadata link/state/completed; the target is the
lexically cleaned join of index, job-state, the RFC 3339 UTC timestamp,
and the third- and second-from-last path segments, which equals the
literal index/job-state/key/job/build whenever job and build are plain
segments (nonempty, not "." or ".."); scenario A's record and path arise
from the four-segment marker path logs/my-job/55/finished.json. -/
theorem claimC3_amended (e : GCSEvent) (c : ObjectContent) (f : Finished) (ts : Int)
    (hbase : pathBase e.Name = "finished.json")
    (hlen : ¬ (goSplitSlash e.Name).length < 4)
    (hdec : c.asFinished = .ok f)
    (hts : f.Timestamp = some ts) (hts0 : ts ≠ 0)
    (hjob : niceSeg ((goSplitSlash e.Name).getD ((goSplitSlash e.Name).length - 3) ""))
    (hbuild : niceSeg ((goSplitSlash e.Name).getD ((goSplitSlash e.Name).length - 2) "")) :
    IndexJobs e c =
      ([{ path := "index/job-state/" ++ rfc3339utc ts ++ "/" ++
            (goSplitSlash e.Name).getD ((goSplitSlash e.Name).length - 3) "" ++ "/" ++
            (goSplitSlash e.Name).getD ((goSplitSlash e.Name).length - 2) "",
          ifNotExists := true,
          body := .jobResult ⟨(match f.Passed with
            | none => "error"
            | some true => "success"
            | some false => "failed"), ts,
            gsURI e.Bucket (pathDir e.Name)⟩,
          metadata := [("link", gsURI e.Bucket (pathDir e.Name)),
            ("state", (match f.Passed with
              | none => "error"
              | some true => "success"
              | some false => "failed")),
            ("completed", intDecStr ts)] }], none) := by
  unfold IndexJobs
  rw [hbase, if_pos rfl]
  unfold indexFinishedBranch
  rw [if_neg hlen, hdec]
  dsimp only
  rw [hts]
  dsimp only
  rw [if_neg hts0]
  rw [pathJoin_state (rfc3339utc ts) _ _ (rfc3339utc_nice ts) hjob hbuild]

/-- Witness for (amended) C3: the four-segment scenario-A marker yields
exactly the spec's record at the spec's index path. -/
theorem claimC3_witness :
    IndexJobs ⟨"logs/my-job/55/finished.json", "b"⟩
        ⟨"RAW", .ok ⟨some 1620000000, some true⟩, []⟩ =
      ([{ path := "index/job-state/2021-05-03T00:00:00Z/my-job/55",
          ifNotExists := true,
          body := .jobResult ⟨"success", 1620000000, "gs://b/logs/my-job/55"⟩,
          metadata := [("link", "gs://b/logs/my-job/55"), ("state", "success"),
            ("completed", "1620000000")] }], none) := by
  have h := claimC3_amended ⟨"logs/my-job/55/finished.json", "b"⟩
    ⟨"RAW", .ok ⟨some 1620000000, some true⟩, []⟩
    ⟨some 1620000000, some true⟩ 1620000000
    (by decide) (by decide) rfl rfl (by decide) (by decide) (by decide)
  rw [h]
  decide

end CISearch
